import Mathlib

/-!
Shallow embedding of `src/cpuScheduler.cpp` (nigh7light/CPU-Scheduler).

The scheduling core of the source consists of the `Process` class, the
`ExecutionSegment` record, the four static members of `Scheduler`
(`FCFS`, `SJF`, `RoundRobin`, `PriorityScheduling`) and the metric
aggregation performed at the top of `displayResults`.  Every definition in
this file is translated directly from that source; C++ `while` loops become
fuel-indexed recursions (`none` = the loop has not finished within the given
fuel), the C++ `int` type is modelled by `Int` together with the explicit
sentinel constant `INT_MAX` exactly where the source mentions `INT_MAX`, and
IEEE doubles (used only by the aggregator) are modelled as `Option ℚ`, with
`none` standing for a non-finite value (NaN or an infinity), which is exactly
the set of non-finite values reachable from the aggregator's divisions.
-/

namespace CPUScheduler

/-- Largest value of the C++ `int` type.  The source uses it (as `INT_MAX`)
for the initial sentinel of the selection loops in `Scheduler::SJF` and
`Scheduler::PriorityScheduling`. -/
def INT_MAX : Int := 2147483647

/-- Embedding of the C++ `Process` class (lines 19-72 of the source).  The
private member `remainingTime` is omitted because no scheduling algorithm
reads it: `Scheduler::RoundRobin` keeps its own local `remainingTime`
vector. -/
structure Process where
  PID : Int
  arrivalTime : Int
  burstTime : Int
  priority : Int
  completionTime : Int
  turnaroundTime : Int
  waitingTime : Int
deriving Repr, DecidableEq

/-- The `Process` constructor: the three derived fields start at 0. -/
def mkProcess (pid arrival burst prio : Int) : Process :=
  ⟨pid, arrival, burst, prio, 0, 0, 0⟩

/-- `Process::setCompletionTime`. -/
def setCompletionTime (t : Int) (p : Process) : Process :=
  { p with completionTime := t }

/-- `Process::calculateTurnaroundTime`:
`turnaroundTime = completionTime - arrivalTime`. -/
def calculateTurnaroundTime (p : Process) : Process :=
  { p with turnaroundTime := p.completionTime - p.arrivalTime }

/-- `Process::calculateWaitingTime`: `waitingTime = turnaroundTime - burstTime`. -/
def calculateWaitingTime (p : Process) : Process :=
  { p with waitingTime := p.turnaroundTime - p.burstTime }

/-- The sequence `setCompletionTime t; calculateTurnaroundTime;
calculateWaitingTime` that every policy performs when a process finishes at
time `t`. -/
def finishAt (t : Int) (p : Process) : Process :=
  calculateWaitingTime (calculateTurnaroundTime (setCompletionTime t p))

/-- Embedding of the C++ `ExecutionSegment` struct (lines 13-17). -/
structure ExecutionSegment where
  processID : Int
  startTime : Int
  endTime : Int
deriving Repr, DecidableEq

/-- Default element used to model C++ `vector` indexing; all accesses in the
verified runs are within bounds, so the default is never observable there. -/
def defaultProcess : Process := mkProcess 0 0 0 0

/-- `processes[i]` for a process vector. -/
def nth (ps : List Process) (i : Nat) : Process :=
  ps.getD i defaultProcess

/-- The immutable scheduling inputs of a record (its identity for
frame-condition statements): `(PID, arrivalTime, burstTime, priority)`. -/
def core (p : Process) : Int × Int × Int × Int :=
  (p.PID, p.arrivalTime, p.burstTime, p.priority)

/-- Validity of a scheduling input as the spec demands it of callers
(non-negative arrival, positive burst), together with the bounds that make
the record representable as C++ `int`s without overflowing the `INT_MAX`
sentinels of the selection loops. -/
def ValidProcess (p : Process) : Prop :=
  0 ≤ p.arrivalTime ∧ p.arrivalTime < INT_MAX ∧
    0 < p.burstTime ∧ p.burstTime < INT_MAX ∧ p.priority < INT_MAX

/-! ### The arrival-time sort used by FCFS and RoundRobin

Both `Scheduler::FCFS` and `Scheduler::RoundRobin` call
`std::sort(processes.begin(), processes.end(), [](a, b){ return
a.getArrivalTime() < b.getArrivalTime(); })`.  `std::sort` guarantees only
that the result is a permutation of the input that is sorted with respect to
the comparator; it does *not* guarantee stability.  The deterministic model
used by the embedding is a stable insertion sort, which satisfies everything
`std::sort` guarantees; the predicate `SortsByArrival` below captures exactly
the guaranteed contract, so that statements that depend only on that contract
can be proved for every conforming implementation. -/

/-- Insert a process into a list, in front of the first element whose arrival
time is not smaller. -/
def insertByArrival (x : Process) : List Process → List Process
  | [] => [x]
  | q :: qs =>
    if x.arrivalTime ≤ q.arrivalTime then x :: q :: qs
    else q :: insertByArrival x qs

/-- Deterministic (stable) model of the source's
`std::sort` by ascending arrival time. -/
def sortByArrival : List Process → List Process
  | [] => []
  | x :: xs => insertByArrival x (sortByArrival xs)

/-- The contract that the C++ standard gives for the `std::sort` call of the
source: the output is a permutation of the input and is sorted with respect
to the strict comparator `a.getArrivalTime() < b.getArrivalTime()` (that is,
no later element has a strictly smaller arrival time). -/
def SortsByArrival (f : List Process → List Process) : Prop :=
  ∀ ps : List Process,
    (f ps).Perm ps ∧
      (f ps).Pairwise (fun a b => a.arrivalTime ≤ b.arrivalTime)

/-! ### FCFS (source lines 77-100) -/

/-- The clock loop of `Scheduler::FCFS`, run over the already-sorted vector:
returns the emitted segments and the mutated records, in order. -/
def fcfsLoop : Int → List Process → List ExecutionSegment × List Process
  | _, [] => ([], [])
  | currentTime, p :: ps =>
    let t0 := if currentTime < p.arrivalTime then p.arrivalTime else currentTime
    let t1 := t0 + p.burstTime
    let rest := fcfsLoop t1 ps
    (⟨p.PID, t0, t1⟩ :: rest.1, finishAt t1 p :: rest.2)

/-- `Scheduler::FCFS`, parametrised by the implementation used for the
`std::sort` call. -/
def FCFSWith (sortImpl : List Process → List Process) (ps : List Process) :
    List ExecutionSegment × List Process :=
  fcfsLoop 0 (sortImpl ps)

/-- `Scheduler::FCFS` with the deterministic stable model of `std::sort`;
component 1 is the returned segment vector, component 2 the process vector
after the call (mutated in place by the C++). -/
def FCFS (ps : List Process) : List ExecutionSegment × List Process :=
  FCFSWith sortByArrival ps

/-! ### SJF (source lines 105-149) -/

/-- State of the `while` loop of `Scheduler::SJF` (and, with the same field
names, of `Scheduler::PriorityScheduling`): the process vector, the
`processed` flag vector, `currentTime`, the `completed` counter and the
segments emitted so far. -/
structure SJFState where
  ps : List Process
  processed : List Bool
  currentTime : Int
  completed : Nat
  exec : List ExecutionSegment
deriving Repr, DecidableEq

/-- The selection scan of `Scheduler::SJF` (lines 117-123): fold over the
indices `0, …, size-1` carrying `(shortest, shortestBurst)`, with
`shortest = none` embedding the C++ sentinel `-1` and `INT_MAX` the initial
`shortestBurst`. -/
def sjfScanStep (ps : List Process) (flags : List Bool) (t : Int)
    (acc : Option Nat × Int) (i : Nat) : Option Nat × Int :=
  if flags.getD i true = false ∧ (nth ps i).arrivalTime ≤ t ∧
      (nth ps i).burstTime < acc.2 then
    (some i, (nth ps i).burstTime)
  else acc

/-- The full selection scan of `Scheduler::SJF`. -/
def sjfScan (ps : List Process) (flags : List Bool) (t : Int) :
    Option Nat × Int :=
  (List.range ps.length).foldl (sjfScanStep ps flags t) (none, INT_MAX)

/-- The fallback loop of `Scheduler::SJF` (lines 127-133): the first index
whose `processed` flag is still false. -/
def firstFalse : List Bool → Option Nat
  | [] => none
  | b :: bs => if b = false then some 0 else (firstFalse bs).map Nat.succ

/-- Execute process `i` starting at time `t` (lines 137-145): mark it
processed, advance the clock by its burst, set its derived fields and emit
one segment. -/
def sjfExecute (s : SJFState) (i : Nat) (t : Int) : SJFState :=
  let p := nth s.ps i
  let t1 := t + p.burstTime
  { ps := s.ps.set i (finishAt t1 p)
    processed := s.processed.set i true
    currentTime := t1
    completed := s.completed + 1
    exec := s.exec ++ [⟨p.PID, t, t1⟩] }

/-- One iteration of the `while` loop of `Scheduler::SJF`.  If the scan finds
an arrived unprocessed process it is executed at `currentTime`; otherwise the
fallback picks the first unprocessed index, moves `currentTime` to that
process's arrival time and executes it directly (the scan is *not* re-run).
If there is no unprocessed process at all the C++ would index
`processes[-1]`; that situation is unreachable while `completed <
processes.size()`, and the model leaves the state unchanged there. -/
def sjfStep (s : SJFState) : SJFState :=
  match (sjfScan s.ps s.processed s.currentTime).1 with
  | some i => sjfExecute s i s.currentTime
  | none =>
    match firstFalse s.processed with
    | some i => sjfExecute s i (nth s.ps i).arrivalTime
    | none => s

/-- The `while (completed < processes.size())` loop of `Scheduler::SJF`,
indexed by fuel; `none` means the loop did not finish within `fuel`
iterations. -/
def sjfRun : Nat → SJFState → Option SJFState
  | 0, s => if s.completed < s.ps.length then none else some s
  | fuel + 1, s =>
    if s.completed < s.ps.length then sjfRun fuel (sjfStep s) else some s

/-- Initial loop state of `Scheduler::SJF`. -/
def sjfInit (ps : List Process) : SJFState :=
  ⟨ps, List.replicate ps.length false, 0, 0, []⟩

/-- `Scheduler::SJF`.  The loop executes exactly one process per iteration,
so `ps.length` iterations always suffice. -/
def SJF (ps : List Process) : Option SJFState :=
  sjfRun ps.length (sjfInit ps)

/-! ### RoundRobin (source lines 155-201) -/

/-- State of the `while (!q.empty())` loop of `Scheduler::RoundRobin`:
the (sorted) process vector, the local `remainingTime` vector, the queue of
indices (front first), `currentTime` and the emitted segments. -/
structure RRState where
  ps : List Process
  remaining : List Int
  q : List Nat
  currentTime : Int
  exec : List ExecutionSegment
deriving Repr, DecidableEq

/-- One iteration of the RoundRobin loop: dequeue the front index; if its
remaining time exceeds the quantum, run one quantum and re-enqueue it,
otherwise run it to completion, set its derived fields and drop it. -/
def rrStepGo (tq : Int) (s : RRState) (idx : Nat) (rest : List Nat) :
    RRState :=
  if tq < s.remaining.getD idx 0 then
      { s with
        currentTime := s.currentTime + tq
        remaining := s.remaining.set idx (s.remaining.getD idx 0 - tq)
        exec := s.exec ++
          [⟨(nth s.ps idx).PID, s.currentTime, s.currentTime + tq⟩]
        q := rest ++ [idx] }
    else
      { s with
        currentTime := s.currentTime + s.remaining.getD idx 0
        remaining := s.remaining.set idx 0
        ps := s.ps.set idx (finishAt (s.currentTime + s.remaining.getD idx 0)
          (nth s.ps idx))
        exec := s.exec ++ [⟨(nth s.ps idx).PID, s.currentTime,
          s.currentTime + s.remaining.getD idx 0⟩]
        q := rest }

/-- Dispatch of one RoundRobin iteration on the queue shape. -/
def rrStep (tq : Int) (s : RRState) : RRState :=
  match s.q with
  | [] => s
  | idx :: rest => rrStepGo tq s idx rest

/-- The `while (!q.empty())` loop, indexed by fuel; `none` means the queue
was still non-empty after `fuel` iterations. -/
def rrRun (tq : Int) : Nat → RRState → Option RRState
  | 0, s => if s.q = [] then some s else none
  | fuel + 1, s => if s.q = [] then some s else rrRun tq fuel (rrStep tq s)

/-- Initial state of `Scheduler::RoundRobin`, parametrised by the `std::sort`
implementation.  Faithful to the source, the `remainingTime` vector is filled
from the burst times in the *pre-sort* order (lines 161-163) and the vector
is sorted only afterwards (lines 166-169); all indices are then enqueued. -/
def rrInitWith (sortImpl : List Process → List Process) (ps : List Process) :
    RRState :=
  ⟨sortImpl ps, ps.map (fun p => p.burstTime), List.range ps.length, 0, []⟩

/-- Initial state of `Scheduler::RoundRobin` under the deterministic stable
model of `std::sort`. -/
def rrInit (ps : List Process) : RRState :=
  rrInitWith sortByArrival ps

/-! ### PriorityScheduling (source lines 208-280) -/

/-- `const int agingInterval = 5` (line 217). -/
def agingInterval : Int := 5

/-- The effective priority computed for an arrived process (lines 230-239):
with aging, the numeric priority drops by one for every full `agingInterval`
of waiting, clamped at 0; without aging it is the plain priority. -/
def effPriority (withAging : Bool) (t : Int) (p : Process) : Int :=
  if withAging then
    let waitTime := t - p.arrivalTime
    let priorityDrop := waitTime / agingInterval
    max (p.priority - priorityDrop) 0
  else p.priority

/-- One index of the selection scan of `Scheduler::PriorityScheduling`
(lines 225-255), carrying `(highest, highestPriority)` with `highest = none`
embedding the sentinel `-1`.  In the tie branch with `highest = -1` the C++
would read `processes[-1]`; that situation cannot arise when every priority
is below `INT_MAX`, and the model keeps the accumulator there. -/
def priorityScanStep (withAging : Bool) (ps : List Process)
    (flags : List Bool) (t : Int) (acc : Option Nat × Int) (i : Nat) :
    Option Nat × Int :=
  if flags.getD i true = true then acc
  else if t < (nth ps i).arrivalTime then acc
  else if effPriority withAging t (nth ps i) < acc.2 then
    (some i, effPriority withAging t (nth ps i))
  else if effPriority withAging t (nth ps i) = acc.2 then
    match acc.1 with
    | none => acc
    | some h =>
      if (nth ps i).arrivalTime < (nth ps h).arrivalTime then (some i, acc.2)
      else if (nth ps i).arrivalTime = (nth ps h).arrivalTime ∧
          (nth ps i).burstTime < (nth ps h).burstTime then (some i, acc.2)
      else acc
  else acc

/-- The full selection scan of `Scheduler::PriorityScheduling`. -/
def priorityScan (withAging : Bool) (ps : List Process) (flags : List Bool)
    (t : Int) : Option Nat × Int :=
  (List.range ps.length).foldl (priorityScanStep withAging ps flags t)
    (none, INT_MAX)

/-- One index of the next-arrival minimum of lines 258-262. -/
def nextArrivalStep (ps : List Process) (flags : List Bool) (acc : Int)
    (i : Nat) : Int :=
  if flags.getD i true = false then min acc (nth ps i).arrivalTime else acc

/-- The advance of lines 258-264: the minimum arrival time over all
unprocessed processes, starting from the sentinel `INT_MAX`. -/
def nextArrival (ps : List Process) (flags : List Bool) : Int :=
  (List.range ps.length).foldl (nextArrivalStep ps flags) INT_MAX

/-- Execute the selected process to completion (lines 268-276). -/
def priorityExecute (s : SJFState) (i : Nat) : SJFState :=
  sjfExecute s i s.currentTime

/-- One iteration of the `while` loop of `Scheduler::PriorityScheduling`:
either execute the scan winner, or (when nothing has arrived) move
`currentTime` to the next arrival and retry. -/
def priorityStep (withAging : Bool) (s : SJFState) : SJFState :=
  match (priorityScan withAging s.ps s.processed s.currentTime).1 with
  | some i => priorityExecute s i
  | none => { s with currentTime := nextArrival s.ps s.processed }

/-- The `while (completed < processes.size())` loop of
`Scheduler::PriorityScheduling`, indexed by fuel. -/
def priorityRun (withAging : Bool) : Nat → SJFState → Option SJFState
  | 0, s => if s.completed < s.ps.length then none else some s
  | fuel + 1, s =>
    if s.completed < s.ps.length then
      priorityRun withAging fuel (priorityStep withAging s)
    else some s

/-- `Scheduler::PriorityScheduling`.  An iteration that advances the clock is
always followed by one that executes a process, so `2 * length + 1`
iterations suffice. -/
def PriorityScheduling (ps : List Process) (withAging : Bool) :
    Option SJFState :=
  priorityRun withAging (2 * ps.length + 1) (sjfInit ps)

/-! ### The metric aggregation of `displayResults` (source lines 283-320)

The aggregation arithmetic is done in IEEE doubles.  Every value reachable
here is either a finite rational (integers and quotients of integers far
below 2^53 are represented exactly) or a non-finite value produced by a
division whose divisor is zero (`0/0 = NaN`, `x/0 = ±Inf`).  The model
therefore uses `Option ℚ`, with `none` for the non-finite values. -/

/-- Double division: `none` (non-finite) exactly when the divisor is 0. -/
def dDiv (a b : ℚ) : Option ℚ :=
  if b = 0 then none else some (a / b)

/-- The three aggregate values printed by `displayResults`. -/
structure MetricsOut where
  avgTurnaround : Option ℚ
  avgWaiting : Option ℚ
  throughput : Option ℚ
deriving Repr, DecidableEq

/-- The running maximum `totalTime` of `displayResults` (lines 292-308):
starts at 0 and is replaced by every strictly larger completion time. -/
def totalTimeOf (ps : List Process) : ℚ :=
  ps.foldl
    (fun acc p =>
      if acc < (p.completionTime : ℚ) then (p.completionTime : ℚ) else acc)
    0

/-- The aggregation performed by `displayResults` (lines 292-319):
`avgTurnaround = (Σ turnaround) / size`, `avgWaiting = (Σ waiting) / size`,
`throughput = size / totalTime`.  There is no guard: the divisions are
performed unconditionally. -/
def displayResultsMetrics (ps : List Process) : MetricsOut :=
  let sumT : ℚ := ps.foldl (fun a p => a + (p.turnaroundTime : ℚ)) 0
  let sumW : ℚ := ps.foldl (fun a p => a + (p.waitingTime : ℚ)) 0
  ⟨dDiv sumT (ps.length : ℚ), dDiv sumW (ps.length : ℚ),
    dDiv (ps.length : ℚ) (totalTimeOf ps)⟩

/-! ### Predicates for the verified properties -/

/-- The per-process metric equations together with their non-negativity:
`turnaround = completion - arrival`, `waiting = turnaround - burst` and
`turnaround ≥ burst` (equivalently `waiting ≥ 0`). -/
def fieldsOK (p : Process) : Prop :=
  p.turnaroundTime = p.completionTime - p.arrivalTime ∧
    p.waitingTime = p.turnaroundTime - p.burstTime ∧
    p.burstTime ≤ p.turnaroundTime

/-- Only the two metric equations, without non-negativity (RoundRobin
guarantees just these). -/
def derivedOK (p : Process) : Prop :=
  p.turnaroundTime = p.completionTime - p.arrivalTime ∧
    p.waitingTime = p.turnaroundTime - p.burstTime

/-- A segment list is chronological: every segment ends no later than any
later segment starts. -/
def Chrono (l : List ExecutionSegment) : Prop :=
  l.Pairwise (fun a b => a.endTime ≤ b.startTime)

/-- Two segments occupy disjoint time intervals. -/
def SegDisjoint (a b : ExecutionSegment) : Prop :=
  a.endTime ≤ b.startTime ∨ b.endTime ≤ a.startTime

/-- Index `i` denotes a process that the priority/SJF selection scan may
pick at time `t`: in range, not yet processed, already arrived. -/
def isCandidate (ps : List Process) (flags : List Bool) (t : Int) (i : Nat) :
    Prop :=
  i < ps.length ∧ flags.getD i true = false ∧ (nth ps i).arrivalTime ≤ t

/-- The selection key of `Scheduler::PriorityScheduling` for index `i` at
time `t`: effective priority, then arrival time, then burst time. -/
def selKey (withAging : Bool) (ps : List Process) (t : Int) (i : Nat) :
    Int × Int × Int :=
  (effPriority withAging t (nth ps i), (nth ps i).arrivalTime,
    (nth ps i).burstTime)

/-- Strict lexicographic order on selection keys; `keyLt (selKey i) (selKey
j)` says the scan strictly prefers `i` over `j`. -/
def keyLt (a b : Int × Int × Int) : Prop :=
  a.1 < b.1 ∨ (a.1 = b.1 ∧ (a.2.1 < b.2.1 ∨ (a.2.1 = b.2.1 ∧ a.2.2 < b.2.2)))

/-- A conforming but non-stable implementation of the `std::sort` contract
used by the source: on a two-element tie it swaps the elements (still a
sorted permutation, which is all `std::sort` promises). -/
def unstableTieSort : List Process → List Process
  | [a, b] => if a.arrivalTime = b.arrivalTime then [b, a] else sortByArrival [a, b]
  | ps => sortByArrival ps

/-- Loop invariant of `Scheduler::SJF` and `Scheduler::PriorityScheduling`,
relative to the input vector `ps0`. -/
structure LoopInv (ps0 : List Process) (s : SJFState) : Prop where
  hlen : s.ps.length = ps0.length
  hflen : s.processed.length = ps0.length
  hcount : s.completed + s.processed.count false = ps0.length
  hcore : ∀ i, core (nth s.ps i) = core (nth ps0 i)
  hdone : ∀ i, i < ps0.length → s.processed.getD i true = true →
    fieldsOK (nth s.ps i)
  hfresh : ∀ i, i < ps0.length → s.processed.getD i true = false →
    nth s.ps i = nth ps0 i
  hchrono : Chrono s.exec
  hend : ∀ e ∈ s.exec, e.endTime ≤ s.currentTime
  hwf : ∀ e ∈ s.exec, e.startTime < e.endTime

/-- Loop invariant of `Scheduler::RoundRobin`, relative to the sorted vector
`ps0` the loop starts from. -/
structure RRInv (ps0 : List Process) (s : RRState) : Prop where
  hlen : s.ps.length = ps0.length
  hrlen : s.remaining.length = ps0.length
  hqlt : ∀ i ∈ s.q, i < ps0.length
  hnodup : s.q.Nodup
  hqpos : ∀ i ∈ s.q, 0 < s.remaining.getD i 0
  hdone : ∀ i, i < ps0.length → i ∉ s.q → derivedOK (nth s.ps i)
  hcore : ∀ i, core (nth s.ps i) = core (nth ps0 i)
  hchrono : Chrono s.exec
  hend : ∀ e ∈ s.exec, e.endTime ≤ s.currentTime
  hwf : ∀ e ∈ s.exec, e.startTime < e.endTime

/-- Termination measure of the RoundRobin loop (for positive quanta): total
remaining work in the queue plus the queue length; each iteration strictly
decreases it. -/
def rrMeasure (s : RRState) : Nat :=
  (s.q.map (fun i => (s.remaining.getD i 0).toNat)).sum + s.q.length

instance (p : Process) : Decidable (ValidProcess p) :=
  decidable_of_iff (0 ≤ p.arrivalTime ∧ p.arrivalTime < INT_MAX ∧
    0 < p.burstTime ∧ p.burstTime < INT_MAX ∧ p.priority < INT_MAX) Iff.rfl

instance (p : Process) : Decidable (fieldsOK p) :=
  decidable_of_iff (p.turnaroundTime = p.completionTime - p.arrivalTime ∧
    p.waitingTime = p.turnaroundTime - p.burstTime ∧
    p.burstTime ≤ p.turnaroundTime) Iff.rfl

instance (p : Process) : Decidable (derivedOK p) :=
  decidable_of_iff (p.turnaroundTime = p.completionTime - p.arrivalTime ∧
    p.waitingTime = p.turnaroundTime - p.burstTime) Iff.rfl

instance (ps : List Process) (flags : List Bool) (t : Int) (i : Nat) :
    Decidable (isCandidate ps flags t i) :=
  decidable_of_iff (i < ps.length ∧ flags.getD i true = false ∧
    (nth ps i).arrivalTime ≤ t) Iff.rfl

instance (a b : ExecutionSegment) : Decidable (SegDisjoint a b) :=
  decidable_of_iff (a.endTime ≤ b.startTime ∨ b.endTime ≤ a.startTime)
    Iff.rfl

/-! ## Helper lemmas on lists -/

theorem getD_of_length_le {α : Type} (l : List α) (i : Nat) (d : α)
    (h : l.length ≤ i) : l.getD i d = d := by
  rw [List.getD_eq_getElem?_getD, List.getElem?_eq_none (by omega)]
  rfl

theorem lt_length_of_getD_false (l : List Bool) (i : Nat)
    (h : l.getD i true = false) : i < l.length := by
  by_contra hc
  rw [getD_of_length_le l i true (by omega)] at h
  exact absurd h (by simp)

theorem getD_set_self {α : Type} (l : List α) (i : Nat) (a d : α)
    (h : i < l.length) : (l.set i a).getD i d = a := by
  rw [List.getD_eq_getElem?_getD, List.getElem?_set]
  simp [h]

theorem getD_set_ne {α : Type} (l : List α) (i j : Nat) (a d : α)
    (h : i ≠ j) : (l.set i a).getD j d = l.getD j d := by
  rw [List.getD_eq_getElem?_getD, List.getElem?_set, if_neg h,
    ← List.getD_eq_getElem?_getD]

theorem getD_replicate_false (n i : Nat) (h : i < n) :
    (List.replicate n false).getD i true = false := by
  rw [List.getD_eq_getElem?_getD, List.getElem?_replicate, if_pos h]
  rfl

theorem nth_set_self (ps : List Process) (i : Nat) (p : Process)
    (h : i < ps.length) : nth (ps.set i p) i = p := by
  show (ps.set i p).getD i defaultProcess = p
  exact getD_set_self ps i p defaultProcess h

theorem nth_set_ne (ps : List Process) (i j : Nat) (p : Process)
    (h : i ≠ j) : nth (ps.set i p) j = nth ps j := by
  show (ps.set i p).getD j defaultProcess = ps.getD j defaultProcess
  exact getD_set_ne ps i j p defaultProcess h

theorem nth_mem (ps : List Process) (i : Nat) (h : i < ps.length) :
    nth ps i ∈ ps := by
  rw [nth, List.getD_eq_getElem ps defaultProcess h]
  exact List.getElem_mem h

theorem count_false_set_true (l : List Bool) (i : Nat)
    (h : l.getD i true = false) :
    l.count false = (l.set i true).count false + 1 := by
  have hi : i < l.length := lt_length_of_getD_false l i h
  have hgl : l[i] = false := by
    rw [← List.getD_eq_getElem l true hi]; exact h
  have hpos : 0 < l.count false := by
    rw [List.count_pos_iff]
    rw [← hgl]
    exact List.getElem_mem hi
  rw [List.count_set true false l i hi]
  simp only [hgl, beq_self_eq_true, if_pos, beq_iff_eq, Bool.true_eq_false,
    if_false]
  omega

theorem count_false_pos_exists (l : List Bool) (h : 0 < l.count false) :
    ∃ i, l.getD i true = false := by
  rw [List.count_pos_iff] at h
  obtain ⟨n, hn, hg⟩ := List.mem_iff_getElem.1 h
  exact ⟨n, by rw [List.getD_eq_getElem l true hn]; exact hg⟩

/-! ## The arrival sort: permutation, sortedness, stability -/

theorem insertByArrival_perm (x : Process) (l : List Process) :
    (insertByArrival x l).Perm (x :: l) := by
  induction l with
  | nil => exact List.Perm.refl _
  | cons q qs ih =>
    rw [insertByArrival]
    by_cases h : x.arrivalTime ≤ q.arrivalTime
    · rw [if_pos h]
    · rw [if_neg h]
      exact (ih.cons q).trans (List.Perm.swap x q qs)

theorem sortByArrival_perm (ps : List Process) :
    (sortByArrival ps).Perm ps := by
  induction ps with
  | nil => exact List.Perm.refl _
  | cons x xs ih =>
    rw [sortByArrival]
    exact (insertByArrival_perm x (sortByArrival xs)).trans (ih.cons x)

theorem mem_insertByArrival (p x : Process) (l : List Process) :
    p ∈ insertByArrival x l ↔ p = x ∨ p ∈ l := by
  rw [(insertByArrival_perm x l).mem_iff, List.mem_cons]

theorem insertByArrival_pairwise (x : Process) (l : List Process)
    (h : l.Pairwise (fun a b => a.arrivalTime ≤ b.arrivalTime)) :
    (insertByArrival x l).Pairwise
      (fun a b => a.arrivalTime ≤ b.arrivalTime) := by
  induction l with
  | nil => simp [insertByArrival]
  | cons q qs ih =>
    rw [insertByArrival]
    rw [List.pairwise_cons] at h
    by_cases hle : x.arrivalTime ≤ q.arrivalTime
    · rw [if_pos hle, List.pairwise_cons]
      refine ⟨?_, List.pairwise_cons.2 h⟩
      intro b hb
      rcases List.mem_cons.1 hb with hb | hb
      · subst hb; exact hle
      · exact le_trans hle (h.1 b hb)
    · rw [if_neg hle, List.pairwise_cons]
      refine ⟨?_, ih h.2⟩
      intro b hb
      rcases (mem_insertByArrival b x qs).1 hb with hb | hb
      · subst hb; omega
      · exact h.1 b hb

theorem sortByArrival_pairwise (ps : List Process) :
    (sortByArrival ps).Pairwise (fun a b => a.arrivalTime ≤ b.arrivalTime) := by
  induction ps with
  | nil => simp [sortByArrival]
  | cons x xs ih => exact insertByArrival_pairwise x _ ih

/-- The deterministic model satisfies everything the source's `std::sort`
call guarantees. -/
theorem sortByArrival_conforms : SortsByArrival sortByArrival :=
  fun ps => ⟨sortByArrival_perm ps, sortByArrival_pairwise ps⟩

theorem filter_insertByArrival (a : Int) (x : Process) (l : List Process) :
    (insertByArrival x l).filter (fun p => p.arrivalTime == a) =
      (x :: l).filter (fun p => p.arrivalTime == a) := by
  induction l with
  | nil => rfl
  | cons q qs ih =>
    rw [insertByArrival]
    by_cases hle : x.arrivalTime ≤ q.arrivalTime
    · rw [if_pos hle]
    · rw [if_neg hle]
      rw [List.filter_cons, List.filter_cons, List.filter_cons, ih,
        List.filter_cons]
      by_cases hq : q.arrivalTime = a
      · have hx : ¬ x.arrivalTime = a := by omega
        simp [hq, hx]
      · simp [hq]

/-- Stability of the model sort: for every arrival value, the subsequence of
processes having that arrival is unchanged. -/
theorem sortByArrival_stable (a : Int) (ps : List Process) :
    (sortByArrival ps).filter (fun p => p.arrivalTime == a) =
      ps.filter (fun p => p.arrivalTime == a) := by
  induction ps with
  | nil => rfl
  | cons x xs ih =>
    rw [sortByArrival, filter_insertByArrival, List.filter_cons,
      List.filter_cons, ih]

/-- The swap-on-tie sort also satisfies the `std::sort` contract. -/
theorem unstableTieSort_conforms : SortsByArrival unstableTieSort := by
  intro ps
  match ps with
  | [a, b] =>
    rw [unstableTieSort]
    by_cases h : a.arrivalTime = b.arrivalTime
    · rw [if_pos h]
      constructor
      · exact List.Perm.swap a b []
      · simp [h]
    · rw [if_neg h]
      exact ⟨sortByArrival_perm _, sortByArrival_pairwise _⟩
  | [] => exact ⟨sortByArrival_perm _, sortByArrival_pairwise _⟩
  | [a] => exact ⟨sortByArrival_perm _, sortByArrival_pairwise _⟩
  | a :: b :: c :: rest => exact ⟨sortByArrival_perm _, sortByArrival_pairwise _⟩

/-! ## Basic facts about process mutation and segments -/

theorem core_finishAt (t : Int) (p : Process) : core (finishAt t p) = core p :=
  rfl

theorem derivedOK_finishAt (t : Int) (p : Process) : derivedOK (finishAt t p) :=
  ⟨rfl, rfl⟩

theorem fieldsOK_finishAt (t0 : Int) (p : Process) (h : p.arrivalTime ≤ t0) :
    fieldsOK (finishAt (t0 + p.burstTime) p) := by
  refine ⟨rfl, rfl, ?_⟩
  show p.burstTime ≤ t0 + p.burstTime - p.arrivalTime
  omega

theorem chrono_append (l : List ExecutionSegment) (e : ExecutionSegment)
    (h : Chrono l) (he : ∀ x ∈ l, x.endTime ≤ e.startTime) :
    Chrono (l ++ [e]) := by
  rw [Chrono, List.pairwise_append]
  exact ⟨h, List.pairwise_singleton _ _,
    fun a ha b hb => by rw [List.mem_singleton.1 hb]; exact he a ha⟩

theorem chrono_disjoint (l : List ExecutionSegment) (h : Chrono l)
    (a b : ExecutionSegment) (ha : a ∈ l) (hb : b ∈ l) (hne : a ≠ b) :
    SegDisjoint a b := by
  have hsym : Symmetric SegDisjoint := by
    intro x y hxy
    rcases hxy with hxy | hxy
    · exact Or.inr hxy
    · exact Or.inl hxy
  have hp : l.Pairwise SegDisjoint :=
    h.imp (fun hab => Or.inl hab)
  exact hp.forall hsym ha hb hne

/-! ## FCFS: the clock loop -/

theorem fcfsLoop_fieldsOK (l : List Process) :
    ∀ t : Int, ∀ p ∈ (fcfsLoop t l).2, fieldsOK p := by
  induction l with
  | nil => intro t p hp; simp [fcfsLoop] at hp
  | cons q qs ih =>
    intro t p hp
    rw [fcfsLoop] at hp
    rcases List.mem_cons.1 hp with hp | hp
    · subst hp
      apply fieldsOK_finishAt
      by_cases hc : t < q.arrivalTime
      · simp [hc]
      · simp [hc]; omega
    · exact ih _ p hp

theorem fcfsLoop_core (l : List Process) :
    ∀ t : Int, ((fcfsLoop t l).2).map core = l.map core := by
  induction l with
  | nil => intro t; rfl
  | cons q qs ih =>
    intro t
    rw [fcfsLoop]
    simp only [List.map_cons]
    rw [core_finishAt, ih]

theorem fcfsLoop_chrono (l : List Process) :
    ∀ t : Int, (∀ p ∈ l, 0 < p.burstTime) →
      Chrono (fcfsLoop t l).1 ∧
        (∀ e ∈ (fcfsLoop t l).1, t ≤ e.startTime ∧ e.startTime < e.endTime) := by
  induction l with
  | nil =>
    intro t _
    exact ⟨List.Pairwise.nil, by intro e he; simp [fcfsLoop] at he⟩
  | cons q qs ih =>
    intro t hb
    rw [fcfsLoop]
    have hq : 0 < q.burstTime := hb q (List.mem_cons_self q qs)
    set t0 := if t < q.arrivalTime then q.arrivalTime else t with ht0
    have htt0 : t ≤ t0 := by rw [ht0]; split <;> omega
    have h1 : t0 < t0 + q.burstTime := by omega
    obtain ⟨hch, hbd⟩ := ih (t0 + q.burstTime) (fun p hp => hb p (List.mem_cons_of_mem q hp))
    constructor
    · rw [Chrono, List.pairwise_cons]
      exact ⟨fun e he => (hbd e he).1, hch⟩
    · intro e he
      rcases List.mem_cons.1 he with he | he
      · subst he; exact ⟨htt0, h1⟩
      · have := hbd e he
        constructor
        · omega
        · exact this.2

/-! ## The SJF selection scan and fallback -/

theorem sjfScan_fold_spec (ps : List Process) (flags : List Bool) (t : Int)
    (n : Nat) :
    ((List.range n).foldl (sjfScanStep ps flags t) (none, INT_MAX) =
        (none, INT_MAX) ∧
      ∀ i < n, ¬ (flags.getD i true = false ∧ (nth ps i).arrivalTime ≤ t ∧
        (nth ps i).burstTime < INT_MAX)) ∨
    (∃ j, ((List.range n).foldl (sjfScanStep ps flags t) (none, INT_MAX)).1 =
        some j ∧
      j < n ∧ flags.getD j true = false ∧ (nth ps j).arrivalTime ≤ t) := by
  induction n with
  | zero => exact Or.inl ⟨rfl, by omega⟩
  | succ n ih =>
    rw [List.range_succ, List.foldl_append, List.foldl_cons, List.foldl_nil]
    rcases ih with ⟨heq, hnone⟩ | ⟨j, hj, hjn, hjf, hja⟩
    · rw [heq]
      by_cases hc : flags.getD n true = false ∧ (nth ps n).arrivalTime ≤ t ∧
          (nth ps n).burstTime < INT_MAX
      · refine Or.inr ⟨n, ?_, by omega, hc.1, hc.2.1⟩
        rw [sjfScanStep, if_pos hc]
      · refine Or.inl ⟨?_, ?_⟩
        · rw [sjfScanStep, if_neg hc]
        · intro i hi
          rcases Nat.lt_succ_iff_lt_or_eq.1 hi with hi | hi
          · exact hnone i hi
          · subst hi; exact hc
    · set acc := (List.range n).foldl (sjfScanStep ps flags t) (none, INT_MAX)
        with hacc
      rw [sjfScanStep]
      by_cases hc : flags.getD n true = false ∧ (nth ps n).arrivalTime ≤ t ∧
          (nth ps n).burstTime < acc.2
      · rw [if_pos hc]
        exact Or.inr ⟨n, rfl, by omega, hc.1, hc.2.1⟩
      · rw [if_neg hc]
        exact Or.inr ⟨j, hj, by omega, hjf, hja⟩

theorem sjfScan_some (ps : List Process) (flags : List Bool) (t : Int)
    (j : Nat) (h : (sjfScan ps flags t).1 = some j) :
    j < ps.length ∧ flags.getD j true = false ∧
      (nth ps j).arrivalTime ≤ t := by
  rcases sjfScan_fold_spec ps flags t ps.length with ⟨heq, _⟩ | ⟨j', hj', h1, h2, h3⟩
  · rw [sjfScan] at h; rw [heq] at h; exact absurd h (by simp)
  · rw [sjfScan] at h; rw [hj'] at h
    obtain rfl : j' = j := by injection h
    exact ⟨h1, h2, h3⟩

theorem sjfScan_none (ps : List Process) (flags : List Bool) (t : Int)
    (h : (sjfScan ps flags t).1 = none) :
    ∀ i < ps.length, flags.getD i true = false →
      ¬ ((nth ps i).arrivalTime ≤ t ∧ (nth ps i).burstTime < INT_MAX) := by
  intro i hi hf hc
  rcases sjfScan_fold_spec ps flags t ps.length with ⟨_, hnone⟩ | ⟨j, hj, _⟩
  · exact hnone i hi ⟨hf, hc.1, hc.2⟩
  · rw [sjfScan] at h; rw [hj] at h; exact absurd h (by simp)

theorem firstFalse_some (l : List Bool) :
    ∀ i : Nat, firstFalse l = some i →
      l.getD i true = false ∧ ∀ j < i, l.getD j true = true := by
  induction l with
  | nil => intro i h; exact absurd h (by simp [firstFalse])
  | cons b bs ih =>
    intro i h
    rw [firstFalse] at h
    by_cases hb : b = false
    · rw [if_pos hb] at h
      obtain rfl : (0 : Nat) = i := by injection h
      exact ⟨hb, by omega⟩
    · rw [if_neg hb] at h
      rcases Option.map_eq_some'.1 h with ⟨i', hi', rfl⟩
      obtain ⟨h1, h2⟩ := ih i' hi'
      refine ⟨h1, ?_⟩
      intro j hj
      match j with
      | 0 =>
        rw [List.getD_cons_zero]
        exact Bool.not_eq_false b |>.mp hb |>.symm ▸ (by
          cases b
          · exact absurd rfl hb
          · rfl)
      | j' + 1 =>
        rw [List.getD_cons_succ]
        exact h2 j' (by omega)

theorem firstFalse_none (l : List Bool) (h : firstFalse l = none) :
    ∀ i : Nat, l.getD i true = true := by
  induction l with
  | nil => intro i; rw [getD_of_length_le] ; simp
  | cons b bs ih =>
    rw [firstFalse] at h
    by_cases hb : b = false
    · rw [if_pos hb] at h; exact absurd h (by simp)
    · rw [if_neg hb] at h
      have hbs : firstFalse bs = none := by
        cases hfb : firstFalse bs
        · rfl
        · rw [hfb] at h; exact absurd h (by simp)
      intro i
      match i with
      | 0 =>
        rw [List.getD_cons_zero]
        cases b
        · exact absurd rfl hb
        · rfl
      | i' + 1 =>
        rw [List.getD_cons_succ]
        exact ih hbs i'

/-! ## The SJF loop invariant -/

theorem core_eq_iff (p q : Process) :
    core p = core q ↔ p.PID = q.PID ∧ p.arrivalTime = q.arrivalTime ∧
      p.burstTime = q.burstTime ∧ p.priority = q.priority := by
  simp [core, Prod.ext_iff]

theorem mem_nth (ps : List Process) (p : Process) (h : p ∈ ps) :
    ∃ i, i < ps.length ∧ nth ps i = p := by
  obtain ⟨n, hn, hg⟩ := List.mem_iff_getElem.1 h
  exact ⟨n, hn, by rw [nth, List.getD_eq_getElem ps defaultProcess hn]; exact hg⟩

theorem count_false_zero_all_true (l : List Bool) (h : l.count false = 0) :
    ∀ i, l.getD i true = true := by
  intro i
  by_cases hi : i < l.length
  · cases hg : l.getD i true
    · exfalso
      have hgl : l[i] = false := by
        rw [← List.getD_eq_getElem l true hi]; exact hg
      have hmem : false ∈ l := by
        rw [← hgl]; exact List.getElem_mem hi
      rw [← List.count_pos_iff] at hmem
      omega
    · rfl
  · rw [getD_of_length_le l i true (by omega)]

theorem sjfExecute_ps (s : SJFState) (i : Nat) (t0 : Int) :
    (sjfExecute s i t0).ps =
      s.ps.set i (finishAt (t0 + (nth s.ps i).burstTime) (nth s.ps i)) := rfl

theorem sjfExecute_processed (s : SJFState) (i : Nat) (t0 : Int) :
    (sjfExecute s i t0).processed = s.processed.set i true := rfl

theorem sjfExecute_currentTime (s : SJFState) (i : Nat) (t0 : Int) :
    (sjfExecute s i t0).currentTime = t0 + (nth s.ps i).burstTime := rfl

theorem sjfExecute_completed (s : SJFState) (i : Nat) (t0 : Int) :
    (sjfExecute s i t0).completed = s.completed + 1 := rfl

theorem sjfExecute_exec (s : SJFState) (i : Nat) (t0 : Int) :
    (sjfExecute s i t0).exec =
      s.exec ++ [⟨(nth s.ps i).PID, t0, t0 + (nth s.ps i).burstTime⟩] := rfl

theorem sjfExecute_inv (ps0 : List Process)
    (hvalid : ∀ p ∈ ps0, ValidProcess p) (s : SJFState)
    (hs : LoopInv ps0 s) (i : Nat) (t0 : Int) (hi : i < ps0.length)
    (hf : s.processed.getD i true = false)
    (harr : (nth s.ps i).arrivalTime ≤ t0) (ht0 : s.currentTime ≤ t0) :
    LoopInv ps0 (sjfExecute s i t0) := by
  have hips : i < s.ps.length := by rw [hs.hlen]; exact hi
  have hb : 0 < (nth s.ps i).burstTime := by
    have hv := hvalid (nth ps0 i) (nth_mem ps0 i hi)
    have := (core_eq_iff _ _).1 (hs.hcore i)
    rw [ValidProcess] at hv
    omega
  constructor
  · rw [sjfExecute_ps, List.length_set]; exact hs.hlen
  · rw [sjfExecute_processed, List.length_set]; exact hs.hflen
  · rw [sjfExecute_completed, sjfExecute_processed]
    have := count_false_set_true s.processed i hf
    have := hs.hcount
    omega
  · intro k
    rw [sjfExecute_ps]
    by_cases hk : k = i
    · subst hk
      rw [nth_set_self s.ps k _ hips, core_finishAt]
      exact hs.hcore k
    · rw [nth_set_ne s.ps i k _ (fun hh => hk hh.symm)]
      exact hs.hcore k
  · intro k hk hkf
    rw [sjfExecute_processed] at hkf
    rw [sjfExecute_ps]
    by_cases hki : k = i
    · subst hki
      rw [nth_set_self s.ps k _ hips]
      exact fieldsOK_finishAt t0 (nth s.ps k) harr
    · rw [getD_set_ne s.processed i k true true (fun hh => hki hh.symm)] at hkf
      rw [nth_set_ne s.ps i k _ (fun hh => hki hh.symm)]
      exact hs.hdone k hk hkf
  · intro k hk hkf
    rw [sjfExecute_processed] at hkf
    rw [sjfExecute_ps]
    by_cases hki : k = i
    · subst hki
      rw [getD_set_self s.processed k true true
        (by rw [hs.hflen]; exact hk)] at hkf
      exact absurd hkf (by simp)
    · rw [getD_set_ne s.processed i k true true (fun hh => hki hh.symm)] at hkf
      rw [nth_set_ne s.ps i k _ (fun hh => hki hh.symm)]
      exact hs.hfresh k hk hkf
  · rw [Chrono, sjfExecute_exec]
    apply chrono_append _ _ hs.hchrono
    intro x hx
    show x.endTime ≤ t0
    have := hs.hend x hx
    omega
  · rw [sjfExecute_exec, sjfExecute_currentTime]
    intro e he
    rcases List.mem_append.1 he with he | he
    · have := hs.hend e he
      omega
    · rw [List.mem_singleton.1 he]
  · rw [sjfExecute_exec]
    intro e he
    rcases List.mem_append.1 he with he | he
    · exact hs.hwf e he
    · rw [List.mem_singleton.1 he]
      show t0 < t0 + (nth s.ps i).burstTime
      omega

theorem loopInv_nonfinal (ps0 : List Process) (s : SJFState)
    (hs : LoopInv ps0 s) (hrun : s.completed < s.ps.length) :
    ∃ i, s.processed.getD i true = false := by
  apply count_false_pos_exists
  have := hs.hcount
  have := hs.hlen
  omega

theorem sjfStep_inv (ps0 : List Process)
    (hvalid : ∀ p ∈ ps0, ValidProcess p) (s : SJFState)
    (hs : LoopInv ps0 s) (hrun : s.completed < s.ps.length) :
    LoopInv ps0 (sjfStep s) ∧ (sjfStep s).completed = s.completed + 1 := by
  rw [sjfStep]
  cases hscan : (sjfScan s.ps s.processed s.currentTime).1 with
  | some i =>
    obtain ⟨hi, hf, harr⟩ := sjfScan_some s.ps s.processed s.currentTime i hscan
    exact ⟨sjfExecute_inv ps0 hvalid s hs i s.currentTime
      (by rw [← hs.hlen]; exact hi) hf harr le_rfl, rfl⟩
  | none =>
    cases hff : firstFalse s.processed with
    | some i =>
      obtain ⟨hf, _⟩ := firstFalse_some s.processed i hff
      have hi : i < ps0.length := by
        rw [← hs.hflen]; exact lt_length_of_getD_false s.processed i hf
      have hips : i < s.ps.length := by rw [hs.hlen]; exact hi
      have hbur : (nth s.ps i).burstTime < INT_MAX := by
        have hv := hvalid (nth ps0 i) (nth_mem ps0 i hi)
        have := (core_eq_iff _ _).1 (hs.hcore i)
        rw [ValidProcess] at hv
        omega
      have hlt : s.currentTime < (nth s.ps i).arrivalTime := by
        have hno := sjfScan_none s.ps s.processed s.currentTime hscan i hips hf
        by_contra hc
        exact hno ⟨by omega, hbur⟩
      exact ⟨sjfExecute_inv ps0 hvalid s hs i (nth s.ps i).arrivalTime hi hf
        le_rfl (by omega), rfl⟩
    | none =>
      exfalso
      obtain ⟨i, hif⟩ := loopInv_nonfinal ps0 s hs hrun
      rw [firstFalse_none s.processed hff i] at hif
      exact absurd hif (by simp)

theorem sjfRun_some_inv (ps0 : List Process)
    (hvalid : ∀ p ∈ ps0, ValidProcess p) :
    ∀ (fuel : Nat) (s s' : SJFState), LoopInv ps0 s →
      sjfRun fuel s = some s' →
      LoopInv ps0 s' ∧ s'.ps.length ≤ s'.completed := by
  intro fuel
  induction fuel with
  | zero =>
    intro s s' hs hr
    rw [sjfRun] at hr
    by_cases hc : s.completed < s.ps.length
    · rw [if_pos hc] at hr; exact absurd hr (by simp)
    · rw [if_neg hc] at hr
      obtain rfl : s = s' := by injection hr
      exact ⟨hs, by omega⟩
  | succ fuel ih =>
    intro s s' hs hr
    rw [sjfRun] at hr
    by_cases hc : s.completed < s.ps.length
    · rw [if_pos hc] at hr
      exact ih (sjfStep s) s' (sjfStep_inv ps0 hvalid s hs hc).1 hr
    · rw [if_neg hc] at hr
      obtain rfl : s = s' := by injection hr
      exact ⟨hs, by omega⟩

theorem sjfRun_term (ps0 : List Process)
    (hvalid : ∀ p ∈ ps0, ValidProcess p) :
    ∀ (fuel : Nat) (s : SJFState), LoopInv ps0 s →
      ps0.length ≤ s.completed + fuel → (sjfRun fuel s).isSome := by
  intro fuel
  induction fuel with
  | zero =>
    intro s hs hb
    rw [sjfRun, if_neg (by rw [hs.hlen]; omega)]
    rfl
  | succ fuel ih =>
    intro s hs hb
    rw [sjfRun]
    by_cases hc : s.completed < s.ps.length
    · rw [if_pos hc]
      obtain ⟨hinv, hcomp⟩ := sjfStep_inv ps0 hvalid s hs hc
      exact ih (sjfStep s) hinv (by omega)
    · rw [if_neg hc]
      rfl

/-- In a final SJF/Priority state every process record satisfies the metric
equations and non-negativity. -/
theorem loopInv_final (ps0 : List Process) (s : SJFState)
    (hs : LoopInv ps0 s) (hfin : s.ps.length ≤ s.completed) :
    ∀ p ∈ s.ps, fieldsOK p := by
  intro p hp
  obtain ⟨i, hi, rfl⟩ := mem_nth s.ps p hp
  have hi0 : i < ps0.length := by rw [← hs.hlen]; exact hi
  apply hs.hdone i hi0
  apply count_false_zero_all_true
  have := hs.hcount
  have := hs.hlen
  omega

theorem loopInv_init (ps0 : List Process) : LoopInv ps0 (sjfInit ps0) := by
  constructor
  · rfl
  · exact List.length_replicate ps0.length false
  · rw [sjfInit]
    simp only []
    rw [List.count_replicate]
    simp
  · intro i; rfl
  · intro i hi hf
    rw [sjfInit] at hf
    simp only [] at hf
    rw [getD_replicate_false ps0.length i hi] at hf
    exact absurd hf (by simp)
  · intro i _ _; rfl
  · exact List.Pairwise.nil
  · intro e he; exact absurd he (by simp [sjfInit])
  · intro e he; exact absurd he (by simp [sjfInit])

/-! ## The priority selection scan -/

theorem keyLt_iff (a b : Int × Int × Int) :
    keyLt a b ↔ a.1 < b.1 ∨ (a.1 = b.1 ∧ (a.2.1 < b.2.1 ∨
      (a.2.1 = b.2.1 ∧ a.2.2 < b.2.2))) := Iff.rfl

theorem selKey_def (wa : Bool) (ps : List Process) (t : Int) (i : Nat) :
    selKey wa ps t i = (effPriority wa t (nth ps i),
      (nth ps i).arrivalTime, (nth ps i).burstTime) := rfl

theorem keyLt_selKey_iff (wa : Bool) (ps : List Process) (t : Int)
    (i j : Nat) :
    keyLt (selKey wa ps t i) (selKey wa ps t j) ↔
      effPriority wa t (nth ps i) < effPriority wa t (nth ps j) ∨
        (effPriority wa t (nth ps i) = effPriority wa t (nth ps j) ∧
          ((nth ps i).arrivalTime < (nth ps j).arrivalTime ∨
            ((nth ps i).arrivalTime = (nth ps j).arrivalTime ∧
              (nth ps i).burstTime < (nth ps j).burstTime))) := Iff.rfl

theorem selKey_eq_iff (wa : Bool) (ps : List Process) (t : Int) (i j : Nat) :
    selKey wa ps t i = selKey wa ps t j ↔
      effPriority wa t (nth ps i) = effPriority wa t (nth ps j) ∧
        (nth ps i).arrivalTime = (nth ps j).arrivalTime ∧
        (nth ps i).burstTime = (nth ps j).burstTime := by
  rw [selKey_def, selKey_def, Prod.ext_iff, Prod.ext_iff]

theorem effPriority_lt_max (wa : Bool) (t : Int) (p : Process)
    (hpr : p.priority < INT_MAX) (harr : p.arrivalTime ≤ t) :
    effPriority wa t p < INT_MAX := by
  have hpr' : p.priority < 2147483647 := hpr
  cases wa
  · show p.priority < INT_MAX
    exact hpr
  · show max (p.priority - (t - p.arrivalTime) / 5) 0 < 2147483647
    omega

theorem pstep_flagged (wa : Bool) (ps : List Process) (flags : List Bool)
    (t : Int) (acc : Option Nat × Int) (i : Nat)
    (h : flags.getD i true = true) :
    priorityScanStep wa ps flags t acc i = acc := by
  rw [priorityScanStep, if_pos h]

theorem pstep_early (wa : Bool) (ps : List Process) (flags : List Bool)
    (t : Int) (acc : Option Nat × Int) (i : Nat)
    (h1 : ¬ flags.getD i true = true) (h2 : t < (nth ps i).arrivalTime) :
    priorityScanStep wa ps flags t acc i = acc := by
  rw [priorityScanStep, if_neg h1, if_pos h2]

theorem pstep_improve (wa : Bool) (ps : List Process) (flags : List Bool)
    (t : Int) (acc : Option Nat × Int) (i : Nat)
    (h1 : ¬ flags.getD i true = true) (h2 : ¬ t < (nth ps i).arrivalTime)
    (h3 : effPriority wa t (nth ps i) < acc.2) :
    priorityScanStep wa ps flags t acc i =
      (some i, effPriority wa t (nth ps i)) := by
  rw [priorityScanStep, if_neg h1, if_neg h2, if_pos h3]

theorem pstep_far (wa : Bool) (ps : List Process) (flags : List Bool)
    (t : Int) (acc : Option Nat × Int) (i : Nat)
    (h1 : ¬ flags.getD i true = true) (h2 : ¬ t < (nth ps i).arrivalTime)
    (h3 : ¬ effPriority wa t (nth ps i) < acc.2)
    (h4 : ¬ effPriority wa t (nth ps i) = acc.2) :
    priorityScanStep wa ps flags t acc i = acc := by
  rw [priorityScanStep, if_neg h1, if_neg h2, if_neg h3, if_neg h4]

theorem pstep_tie (wa : Bool) (ps : List Process) (flags : List Bool)
    (t : Int) (h : Nat) (v : Int) (i : Nat)
    (h1 : ¬ flags.getD i true = true) (h2 : ¬ t < (nth ps i).arrivalTime)
    (h3 : ¬ effPriority wa t (nth ps i) < v)
    (h4 : effPriority wa t (nth ps i) = v) :
    priorityScanStep wa ps flags t (some h, v) i =
      (if (nth ps i).arrivalTime < (nth ps h).arrivalTime then (some i, v)
       else if (nth ps i).arrivalTime = (nth ps h).arrivalTime ∧
          (nth ps i).burstTime < (nth ps h).burstTime then (some i, v)
       else (some h, v)) := by
  rw [priorityScanStep, if_neg h1, if_neg h2, if_neg h3, if_pos h4]

theorem keyLt_trans (a b c : Int × Int × Int) (h1 : keyLt a b)
    (h2 : keyLt b c) : keyLt a c := by
  rw [keyLt_iff] at h1 h2 ⊢
  omega

theorem keyLt_irrefl (a : Int × Int × Int) : ¬ keyLt a a := by
  rw [keyLt_iff]
  omega

theorem priorityScan_fold_spec (wa : Bool) (ps : List Process)
    (flags : List Bool) (t : Int)
    (hpr : ∀ i, i < ps.length → (nth ps i).priority < INT_MAX) :
    ∀ n, n ≤ ps.length →
      ((List.range n).foldl (priorityScanStep wa ps flags t)
          (none, INT_MAX) = (none, INT_MAX) ∧
        ∀ i < n, ¬ (flags.getD i true = false ∧
          (nth ps i).arrivalTime ≤ t)) ∨
      (∃ j, (List.range n).foldl (priorityScanStep wa ps flags t)
            (none, INT_MAX) = (some j, effPriority wa t (nth ps j)) ∧
        j < n ∧ flags.getD j true = false ∧ (nth ps j).arrivalTime ≤ t ∧
        ∀ i < n, flags.getD i true = false → (nth ps i).arrivalTime ≤ t →
          ¬ keyLt (selKey wa ps t i) (selKey wa ps t j) ∧
            (selKey wa ps t i = selKey wa ps t j → j ≤ i)) := by
  intro n
  induction n with
  | zero =>
    intro _
    exact Or.inl ⟨rfl, fun i hi => absurd hi (Nat.not_lt_zero i)⟩
  | succ n ih =>
    intro hn
    have hnlen : n < ps.length := by omega
    rw [List.range_succ, List.foldl_append, List.foldl_cons, List.foldl_nil]
    rcases ih (by omega) with ⟨hr, hnone⟩ | ⟨j, hrj, hjn, hjf, hja, hmin⟩
    · rw [hr]
      by_cases hfn : flags.getD n true = true
      · rw [pstep_flagged wa ps flags t _ n hfn]
        refine Or.inl ⟨rfl, ?_⟩
        intro i hi hc
        rcases Nat.lt_succ_iff_lt_or_eq.1 hi with hi | hi
        · exact hnone i hi hc
        · subst hi; rw [hc.1] at hfn; exact absurd hfn (by simp)
      · have hfn' : flags.getD n true = false := by
          cases hgg : flags.getD n true
          · rfl
          · exact absurd hgg hfn
        by_cases han : t < (nth ps n).arrivalTime
        · rw [pstep_early wa ps flags t _ n hfn han]
          refine Or.inl ⟨rfl, ?_⟩
          intro i hi hc
          rcases Nat.lt_succ_iff_lt_or_eq.1 hi with hi | hi
          · exact hnone i hi hc
          · subst hi; omega
        · have heff : effPriority wa t (nth ps n) < INT_MAX :=
            effPriority_lt_max wa t (nth ps n) (hpr n hnlen) (by omega)
          rw [pstep_improve wa ps flags t _ n hfn han heff]
          refine Or.inr ⟨n, rfl, by omega, hfn', by omega, ?_⟩
          intro i hi hif hia
          rcases Nat.lt_succ_iff_lt_or_eq.1 hi with hi | hi
          · exact absurd ⟨hif, hia⟩ (hnone i hi)
          · subst hi
            exact ⟨keyLt_irrefl _, fun _ => le_refl _⟩
    · rw [hrj]
      by_cases hfn : flags.getD n true = true
      · rw [pstep_flagged wa ps flags t _ n hfn]
        refine Or.inr ⟨j, rfl, by omega, hjf, hja, ?_⟩
        intro i hi hif hia
        rcases Nat.lt_succ_iff_lt_or_eq.1 hi with hi | hi
        · exact hmin i hi hif hia
        · subst hi; rw [hif] at hfn; exact absurd hfn (by simp)
      · have hfn' : flags.getD n true = false := by
          cases hgg : flags.getD n true
          · rfl
          · exact absurd hgg hfn
        by_cases han : t < (nth ps n).arrivalTime
        · rw [pstep_early wa ps flags t _ n hfn han]
          refine Or.inr ⟨j, rfl, by omega, hjf, hja, ?_⟩
          intro i hi hif hia
          rcases Nat.lt_succ_iff_lt_or_eq.1 hi with hi | hi
          · exact hmin i hi hif hia
          · subst hi; omega
        · have hkltnj : effPriority wa t (nth ps n) <
              effPriority wa t (nth ps j) → keyLt (selKey wa ps t n)
              (selKey wa ps t j) := by
            intro hh
            rw [keyLt_selKey_iff]
            exact Or.inl hh
          by_cases h3 : effPriority wa t (nth ps n) <
              effPriority wa t (nth ps j)
          · rw [pstep_improve wa ps flags t _ n hfn han h3]
            refine Or.inr ⟨n, rfl, by omega, hfn', by omega, ?_⟩
            intro i hi hif hia
            rcases Nat.lt_succ_iff_lt_or_eq.1 hi with hi | hi
            · obtain ⟨hnk, _⟩ := hmin i hi hif hia
              constructor
              · intro hlt
                exact hnk (keyLt_trans _ _ _ hlt (hkltnj h3))
              · intro heq
                exfalso
                apply hnk
                rw [heq]
                exact hkltnj h3
            · subst hi
              exact ⟨keyLt_irrefl _, fun _ => le_refl _⟩
          · by_cases h4 : effPriority wa t (nth ps n) =
                effPriority wa t (nth ps j)
            · rw [pstep_tie wa ps flags t j (effPriority wa t (nth ps j)) n
                hfn han h3 h4]
              by_cases h5 : (nth ps n).arrivalTime < (nth ps j).arrivalTime
              · rw [if_pos h5]
                have hkey : keyLt (selKey wa ps t n) (selKey wa ps t j) := by
                  rw [keyLt_selKey_iff]
                  exact Or.inr ⟨h4, Or.inl h5⟩
                refine Or.inr ⟨n, by rw [h4], by omega, hfn', by omega, ?_⟩
                intro i hi hif hia
                rcases Nat.lt_succ_iff_lt_or_eq.1 hi with hi | hi
                · obtain ⟨hnk, _⟩ := hmin i hi hif hia
                  constructor
                  · intro hlt
                    exact hnk (keyLt_trans _ _ _ hlt hkey)
                  · intro heq
                    exfalso
                    apply hnk
                    rw [heq]
                    exact hkey
                · subst hi
                  exact ⟨keyLt_irrefl _, fun _ => le_refl _⟩
              · rw [if_neg h5]
                by_cases h6 : (nth ps n).arrivalTime =
                    (nth ps j).arrivalTime ∧
                    (nth ps n).burstTime < (nth ps j).burstTime
                · rw [if_pos h6]
                  have hkey : keyLt (selKey wa ps t n) (selKey wa ps t j) := by
                    rw [keyLt_selKey_iff]
                    exact Or.inr ⟨h4, Or.inr h6⟩
                  refine Or.inr ⟨n, by rw [h4], by omega, hfn', by omega, ?_⟩
                  intro i hi hif hia
                  rcases Nat.lt_succ_iff_lt_or_eq.1 hi with hi | hi
                  · obtain ⟨hnk, _⟩ := hmin i hi hif hia
                    constructor
                    · intro hlt
                      exact hnk (keyLt_trans _ _ _ hlt hkey)
                    · intro heq
                      exfalso
                      apply hnk
                      rw [heq]
                      exact hkey
                  · subst hi
                    exact ⟨keyLt_irrefl _, fun _ => le_refl _⟩
                · rw [if_neg h6]
                  refine Or.inr ⟨j, rfl, by omega, hjf, hja, ?_⟩
                  intro i hi hif hia
                  rcases Nat.lt_succ_iff_lt_or_eq.1 hi with hi | hi
                  · exact hmin i hi hif hia
                  · subst hi
                    constructor
                    · rw [keyLt_selKey_iff]
                      omega
                    · intro _
                      omega
            · rw [pstep_far wa ps flags t _ n hfn han h3 h4]
              refine Or.inr ⟨j, rfl, by omega, hjf, hja, ?_⟩
              intro i hi hif hia
              rcases Nat.lt_succ_iff_lt_or_eq.1 hi with hi | hi
              · exact hmin i hi hif hia
              · subst hi
                constructor
                · rw [keyLt_selKey_iff]
                  omega
                · intro heq
                  rw [selKey_eq_iff] at heq
                  omega

theorem priorityScan_none (wa : Bool) (ps : List Process) (flags : List Bool)
    (t : Int) (hpr : ∀ i, i < ps.length → (nth ps i).priority < INT_MAX)
    (h : (priorityScan wa ps flags t).1 = none) :
    ∀ i < ps.length, flags.getD i true = false →
      t < (nth ps i).arrivalTime := by
  intro i hi hif
  rcases priorityScan_fold_spec wa ps flags t hpr ps.length le_rfl with
    ⟨_, hnone⟩ | ⟨j, hrj, _⟩
  · by_contra hc
    exact hnone i hi ⟨hif, by omega⟩
  · rw [priorityScan] at h
    rw [hrj] at h
    exact absurd h (by simp)

theorem priorityScan_some (wa : Bool) (ps : List Process) (flags : List Bool)
    (t : Int) (hpr : ∀ i, i < ps.length → (nth ps i).priority < INT_MAX)
    (j : Nat) (h : (priorityScan wa ps flags t).1 = some j) :
    j < ps.length ∧ flags.getD j true = false ∧
      (nth ps j).arrivalTime ≤ t := by
  rcases priorityScan_fold_spec wa ps flags t hpr ps.length le_rfl with
    ⟨hr, _⟩ | ⟨j', hrj, hj1, hj2, hj3, _⟩
  · rw [priorityScan] at h
    rw [hr] at h
    exact absurd h (by simp)
  · rw [priorityScan] at h
    rw [hrj] at h
    obtain rfl : j' = j := by injection h
    exact ⟨hj1, hj2, hj3⟩

theorem priorityScan_succeeds (wa : Bool) (ps : List Process)
    (flags : List Bool) (t : Int)
    (hpr : ∀ i, i < ps.length → (nth ps i).priority < INT_MAX)
    (hex : ∃ i, i < ps.length ∧ flags.getD i true = false ∧
      (nth ps i).arrivalTime ≤ t) :
    ∃ j, (priorityScan wa ps flags t).1 = some j := by
  obtain ⟨i, hi, hif, hia⟩ := hex
  rcases priorityScan_fold_spec wa ps flags t hpr ps.length le_rfl with
    ⟨_, hnone⟩ | ⟨j, hrj, _⟩
  · exact absurd ⟨hif, hia⟩ (hnone i hi)
  · exact ⟨j, by rw [priorityScan, hrj]⟩

/-! ## The next-arrival advance -/

theorem nextArrival_fold_spec (ps : List Process) (flags : List Bool) :
    ∀ n : Nat,
      ((List.range n).foldl (nextArrivalStep ps flags) INT_MAX = INT_MAX ∨
        ∃ j, j < n ∧ flags.getD j true = false ∧
          (List.range n).foldl (nextArrivalStep ps flags) INT_MAX =
            (nth ps j).arrivalTime) ∧
      ∀ i < n, flags.getD i true = false →
        (List.range n).foldl (nextArrivalStep ps flags) INT_MAX ≤
          (nth ps i).arrivalTime := by
  intro n
  induction n with
  | zero => exact ⟨Or.inl rfl, fun i hi => absurd hi (Nat.not_lt_zero i)⟩
  | succ n ih =>
    obtain ⟨ihc, ihle⟩ := ih
    rw [List.range_succ, List.foldl_append, List.foldl_cons, List.foldl_nil]
    set r := (List.range n).foldl (nextArrivalStep ps flags) INT_MAX with hr
    by_cases hfn : flags.getD n true = false
    · rw [nextArrivalStep, if_pos hfn]
      constructor
      · rcases le_or_lt r (nth ps n).arrivalTime with hle | hlt
        · rw [min_eq_left hle]
          rcases ihc with hc | ⟨j, hj1, hj2, hj3⟩
          · exact Or.inl hc
          · exact Or.inr ⟨j, by omega, hj2, hj3⟩
        · rw [min_eq_right (by omega)]
          exact Or.inr ⟨n, by omega, hfn, rfl⟩
      · intro i hi hif
        rcases Nat.lt_succ_iff_lt_or_eq.1 hi with hi | hi
        · have := ihle i hi hif
          have := min_le_left r (nth ps n).arrivalTime
          omega
        · subst hi
          exact min_le_right _ _
    · rw [nextArrivalStep, if_neg hfn]
      constructor
      · rcases ihc with hc | ⟨j, hj1, hj2, hj3⟩
        · exact Or.inl hc
        · exact Or.inr ⟨j, by omega, hj2, hj3⟩
      · intro i hi hif
        rcases Nat.lt_succ_iff_lt_or_eq.1 hi with hi | hi
        · exact ihle i hi hif
        · subst hi; exact absurd hif hfn

theorem nextArrival_le (ps : List Process) (flags : List Bool) (i : Nat)
    (hi : i < ps.length) (hif : flags.getD i true = false) :
    nextArrival ps flags ≤ (nth ps i).arrivalTime :=
  (nextArrival_fold_spec ps flags ps.length).2 i hi hif

theorem nextArrival_attained (ps : List Process) (flags : List Bool)
    (i : Nat) (hi : i < ps.length) (hif : flags.getD i true = false)
    (hlt : (nth ps i).arrivalTime < INT_MAX) :
    ∃ j, j < ps.length ∧ flags.getD j true = false ∧
      nextArrival ps flags = (nth ps j).arrivalTime := by
  rcases (nextArrival_fold_spec ps flags ps.length).1 with hc | ⟨j, hj⟩
  · exfalso
    have := nextArrival_le ps flags i hi hif
    rw [nextArrival] at this
    omega
  · exact ⟨j, hj⟩

/-! ## The priority loop -/

theorem priorityExecute_eq (s : SJFState) (i : Nat) :
    priorityExecute s i = sjfExecute s i s.currentTime := rfl

theorem priorityStep_some (wa : Bool) (s : SJFState) (i : Nat)
    (h : (priorityScan wa s.ps s.processed s.currentTime).1 = some i) :
    priorityStep wa s = sjfExecute s i s.currentTime := by
  rw [priorityStep, h]
  rfl

theorem priorityStep_none (wa : Bool) (s : SJFState)
    (h : (priorityScan wa s.ps s.processed s.currentTime).1 = none) :
    priorityStep wa s = { s with currentTime := nextArrival s.ps s.processed } := by
  rw [priorityStep, h]

theorem loopInv_hpr (ps0 : List Process)
    (hvalid : ∀ p ∈ ps0, ValidProcess p) (s : SJFState) (hs : LoopInv ps0 s) :
    ∀ i, i < s.ps.length → (nth s.ps i).priority < INT_MAX := by
  intro i hi
  have hi0 : i < ps0.length := by rw [← hs.hlen]; exact hi
  have hv := hvalid (nth ps0 i) (nth_mem ps0 i hi0)
  have := (core_eq_iff _ _).1 (hs.hcore i)
  rw [ValidProcess] at hv
  omega

theorem priorityAdvance_inv (wa : Bool) (ps0 : List Process)
    (hvalid : ∀ p ∈ ps0, ValidProcess p) (s : SJFState) (hs : LoopInv ps0 s)
    (hrun : s.completed < s.ps.length)
    (hnone : (priorityScan wa s.ps s.processed s.currentTime).1 = none) :
    LoopInv ps0 { s with currentTime := nextArrival s.ps s.processed } ∧
      s.currentTime < nextArrival s.ps s.processed ∧
      ∃ j, j < s.ps.length ∧ s.processed.getD j true = false ∧
        (nth s.ps j).arrivalTime ≤ nextArrival s.ps s.processed := by
  have hpr := loopInv_hpr ps0 hvalid s hs
  obtain ⟨i0, hi0f⟩ := loopInv_nonfinal ps0 s hs hrun
  have hi0 : i0 < s.ps.length := by
    rw [hs.hlen, ← hs.hflen]
    exact lt_length_of_getD_false s.processed i0 hi0f
  have harr0 : (nth s.ps i0).arrivalTime < INT_MAX := by
    have hi00 : i0 < ps0.length := by rw [← hs.hlen]; exact hi0
    have hv := hvalid (nth ps0 i0) (nth_mem ps0 i0 hi00)
    have := (core_eq_iff _ _).1 (hs.hcore i0)
    rw [ValidProcess] at hv
    omega
  obtain ⟨j, hj1, hj2, hj3⟩ :=
    nextArrival_attained s.ps s.processed i0 hi0 hi0f harr0
  have hlt : s.currentTime < nextArrival s.ps s.processed := by
    have := priorityScan_none wa s.ps s.processed s.currentTime hpr hnone
      j hj1 hj2
    omega
  refine ⟨?_, hlt, ⟨j, hj1, hj2, by omega⟩⟩
  constructor
  · exact hs.hlen
  · exact hs.hflen
  · exact hs.hcount
  · exact hs.hcore
  · exact hs.hdone
  · exact hs.hfresh
  · exact hs.hchrono
  · intro e he
    have := hs.hend e he
    show e.endTime ≤ nextArrival s.ps s.processed
    omega
  · exact hs.hwf

theorem priorityStep_inv (wa : Bool) (ps0 : List Process)
    (hvalid : ∀ p ∈ ps0, ValidProcess p) (s : SJFState) (hs : LoopInv ps0 s)
    (hrun : s.completed < s.ps.length) :
    LoopInv ps0 (priorityStep wa s) := by
  cases hscan : (priorityScan wa s.ps s.processed s.currentTime).1 with
  | some i =>
    rw [priorityStep_some wa s i hscan]
    obtain ⟨hi, hif, hia⟩ := priorityScan_some wa s.ps s.processed
      s.currentTime (loopInv_hpr ps0 hvalid s hs) i hscan
    exact sjfExecute_inv ps0 hvalid s hs i s.currentTime
      (by rw [← hs.hlen]; exact hi) hif hia le_rfl
  | none =>
    rw [priorityStep_none wa s hscan]
    exact (priorityAdvance_inv wa ps0 hvalid s hs hrun hscan).1

theorem priorityRun_some_inv (wa : Bool) (ps0 : List Process)
    (hvalid : ∀ p ∈ ps0, ValidProcess p) :
    ∀ (fuel : Nat) (s s' : SJFState), LoopInv ps0 s →
      priorityRun wa fuel s = some s' →
      LoopInv ps0 s' ∧ s'.ps.length ≤ s'.completed := by
  intro fuel
  induction fuel with
  | zero =>
    intro s s' hs hr
    rw [priorityRun] at hr
    by_cases hc : s.completed < s.ps.length
    · rw [if_pos hc] at hr; exact absurd hr (by simp)
    · rw [if_neg hc] at hr
      obtain rfl : s = s' := by injection hr
      exact ⟨hs, by omega⟩
  | succ fuel ih =>
    intro s s' hs hr
    rw [priorityRun] at hr
    by_cases hc : s.completed < s.ps.length
    · rw [if_pos hc] at hr
      exact ih (priorityStep wa s) s' (priorityStep_inv wa ps0 hvalid s hs hc) hr
    · rw [if_neg hc] at hr
      obtain rfl : s = s' := by injection hr
      exact ⟨hs, by omega⟩

theorem priorityRun_term (wa : Bool) (ps0 : List Process)
    (hvalid : ∀ p ∈ ps0, ValidProcess p) :
    ∀ (fuel : Nat) (s : SJFState), LoopInv ps0 s →
      2 * (ps0.length - s.completed) + 1 ≤ fuel →
      (priorityRun wa fuel s).isSome := by
  intro fuel
  induction fuel using Nat.strong_induction_on with
  | _ fuel ih =>
    intro s hs hb
    by_cases hc : s.completed < s.ps.length
    · have hlc : s.completed < ps0.length := by rw [← hs.hlen]; exact hc
      match fuel, hb with
      | fuel + 1, hb =>
        rw [priorityRun, if_pos hc]
        cases hscan : (priorityScan wa s.ps s.processed s.currentTime).1 with
        | some i =>
          have hstep := priorityStep_some wa s i hscan
          have hinv := priorityStep_inv wa ps0 hvalid s hs hc
          rw [hstep] at hinv
          rw [hstep]
          apply ih fuel (by omega) (sjfExecute s i s.currentTime) hinv
          rw [sjfExecute_completed]
          omega
        | none =>
          obtain ⟨hinv', hlt', j, hj1, hj2, hj3⟩ :=
            priorityAdvance_inv wa ps0 hvalid s hs hc hscan
          have hfuel2 : 1 ≤ fuel := by omega
          match fuel, hb with
          | fuel + 1, hb =>
            rw [priorityStep_none wa s hscan, priorityRun, if_pos hc]
            obtain ⟨j2, hj2s⟩ := priorityScan_succeeds wa s.ps s.processed
              (nextArrival s.ps s.processed)
              (loopInv_hpr ps0 hvalid s hs) ⟨j, hj1, hj2, hj3⟩
            have hstep2 := priorityStep_some wa
              { s with currentTime := nextArrival s.ps s.processed } j2 hj2s
            have hinv2 := priorityStep_inv wa ps0 hvalid
              { s with currentTime := nextArrival s.ps s.processed } hinv' hc
            rw [hstep2] at hinv2
            rw [hstep2]
            apply ih fuel (by omega) _ hinv2
            rw [sjfExecute_completed]
            show 2 * (ps0.length - (s.completed + 1)) + 1 ≤ fuel
            omega
    · cases fuel with
      | zero => rw [priorityRun, if_neg hc]; rfl
      | succ fuel => rw [priorityRun, if_neg hc]; rfl

/-! ## The RoundRobin loop -/

theorem rrStep_big (tq : Int) (s : RRState) (idx : Nat) (rest : List Nat)
    (hq : s.q = idx :: rest) (h : tq < s.remaining.getD idx 0) :
    rrStep tq s = { s with
      currentTime := s.currentTime + tq
      remaining := s.remaining.set idx (s.remaining.getD idx 0 - tq)
      exec := s.exec ++
        [⟨(nth s.ps idx).PID, s.currentTime, s.currentTime + tq⟩]
      q := rest ++ [idx] } := by
  have hgo : rrStep tq s = rrStepGo tq s idx rest := by rw [rrStep, hq]
  rw [hgo, rrStepGo, if_pos h]

theorem rrStep_last (tq : Int) (s : RRState) (idx : Nat) (rest : List Nat)
    (hq : s.q = idx :: rest) (h : ¬ tq < s.remaining.getD idx 0) :
    rrStep tq s = { s with
      currentTime := s.currentTime + s.remaining.getD idx 0
      remaining := s.remaining.set idx 0
      ps := s.ps.set idx (finishAt (s.currentTime + s.remaining.getD idx 0)
        (nth s.ps idx))
      exec := s.exec ++ [⟨(nth s.ps idx).PID, s.currentTime,
        s.currentTime + s.remaining.getD idx 0⟩]
      q := rest } := by
  have hgo : rrStep tq s = rrStepGo tq s idx rest := by rw [rrStep, hq]
  rw [hgo, rrStepGo, if_neg h]

theorem rrStep_inv (tq : Int) (htq : 0 < tq) (ps0 : List Process)
    (s : RRState) (hs : RRInv ps0 s) (hne : s.q ≠ []) :
    RRInv ps0 (rrStep tq s) ∧ rrMeasure (rrStep tq s) < rrMeasure s := by
  match hq : s.q, hne with
  | idx :: rest, _ =>
    have hidx : idx < ps0.length := hs.hqlt idx (by rw [hq]; exact List.mem_cons_self idx rest)
    have hidxr : idx < s.remaining.length := by rw [hs.hrlen]; exact hidx
    have hidxp : idx < s.ps.length := by rw [hs.hlen]; exact hidx
    have hrem : 0 < s.remaining.getD idx 0 :=
      hs.hqpos idx (by rw [hq]; exact List.mem_cons_self idx rest)
    have hnd := hs.hnodup
    rw [hq, List.nodup_cons] at hnd
    have hmemq : ∀ i ∈ rest, i ∈ s.q := by
      intro i hi; rw [hq]; exact List.mem_cons_of_mem idx hi
    by_cases hbig : tq < s.remaining.getD idx 0
    · rw [rrStep_big tq s idx rest hq hbig]
      constructor
      · constructor
        · exact hs.hlen
        · rw [List.length_set]; exact hs.hrlen
        · intro i hi
          rcases List.mem_append.1 hi with hi | hi
          · exact hs.hqlt i (hmemq i hi)
          · rw [List.mem_singleton.1 hi]; exact hidx
        · rw [List.nodup_append]
          exact ⟨hnd.2, List.nodup_singleton idx,
            by rw [List.disjoint_singleton]; exact hnd.1⟩
        · intro i hi
          rcases List.mem_append.1 hi with hi | hi
          · have hne2 : idx ≠ i := fun hh => hnd.1 (hh ▸ hi)
            rw [getD_set_ne s.remaining idx i _ 0 hne2]
            exact hs.hqpos i (hmemq i hi)
          · rw [List.mem_singleton.1 hi]
            rw [getD_set_self s.remaining idx _ 0 hidxr]
            omega
        · intro i hi hni
          apply hs.hdone i hi
          rw [hq]
          intro hmem
          rcases List.mem_cons.1 hmem with hmem | hmem
          · exact hni (hmem ▸ List.mem_append_right rest
              (List.mem_singleton.2 rfl))
          · exact hni (List.mem_append_left [idx] hmem)
        · exact hs.hcore
        · apply chrono_append _ _ hs.hchrono
          intro x hx
          show x.endTime ≤ s.currentTime
          exact hs.hend x hx
        · intro e he
          rcases List.mem_append.1 he with he | he
          · have := hs.hend e he
            show e.endTime ≤ s.currentTime + tq
            omega
          · rw [List.mem_singleton.1 he]
        · intro e he
          rcases List.mem_append.1 he with he | he
          · exact hs.hwf e he
          · rw [List.mem_singleton.1 he]
            show s.currentTime < s.currentTime + tq
            omega
      · have hms : rrMeasure s =
            ((idx :: rest).map (fun i => (s.remaining.getD i 0).toNat)).sum +
              (idx :: rest).length := by
          rw [rrMeasure, hq]
        rw [hms]
        show ((rest ++ [idx]).map
            (fun i => ((s.remaining.set idx
              (s.remaining.getD idx 0 - tq)).getD i 0).toNat)).sum +
            (rest ++ [idx]).length <
          ((idx :: rest).map (fun i => (s.remaining.getD i 0).toNat)).sum +
            (idx :: rest).length
        have hrest : rest.map (fun i => ((s.remaining.set idx
            (s.remaining.getD idx 0 - tq)).getD i 0).toNat) =
            rest.map (fun i => (s.remaining.getD i 0).toNat) := by
          apply List.map_congr_left
          intro a ha
          have hne2 : idx ≠ a := fun hh => hnd.1 (hh ▸ ha)
          rw [getD_set_ne s.remaining idx a _ 0 hne2]
        have hsingle : ([idx].map (fun i => ((s.remaining.set idx
            (s.remaining.getD idx 0 - tq)).getD i 0).toNat)).sum =
            (s.remaining.getD idx 0 - tq).toNat := by
          rw [List.map_cons, List.map_nil, List.sum_cons, List.sum_nil,
            getD_set_self s.remaining idx _ 0 hidxr]
          omega
        rw [List.map_append, List.sum_append, List.length_append, hrest,
          hsingle, List.map_cons, List.sum_cons, List.length_cons]
        have htn : (s.remaining.getD idx 0 - tq).toNat <
            (s.remaining.getD idx 0).toNat := by omega
        simp only [List.length_cons, List.length_nil]
        omega
    · rw [rrStep_last tq s idx rest hq hbig]
      constructor
      · constructor
        · rw [List.length_set]; exact hs.hlen
        · rw [List.length_set]; exact hs.hrlen
        · intro i hi
          exact hs.hqlt i (hmemq i hi)
        · exact hnd.2
        · intro i hi
          have hne2 : idx ≠ i := fun hh => hnd.1 (hh ▸ hi)
          rw [getD_set_ne s.remaining idx i _ 0 hne2]
          exact hs.hqpos i (hmemq i hi)
        · intro i hi hni
          by_cases hii : i = idx
          · subst hii
            rw [nth_set_self s.ps i _ hidxp]
            exact derivedOK_finishAt _ _
          · rw [nth_set_ne s.ps idx i _ (fun hh => hii hh.symm)]
            apply hs.hdone i hi
            rw [hq]
            intro hmem
            rcases List.mem_cons.1 hmem with hmem | hmem
            · exact hii hmem
            · exact hni hmem
        · intro i
          by_cases hii : i = idx
          · subst hii
            rw [nth_set_self s.ps i _ hidxp, core_finishAt]
            exact hs.hcore i
          · rw [nth_set_ne s.ps idx i _ (fun hh => hii hh.symm)]
            exact hs.hcore i
        · apply chrono_append _ _ hs.hchrono
          intro x hx
          show x.endTime ≤ s.currentTime
          exact hs.hend x hx
        · intro e he
          rcases List.mem_append.1 he with he | he
          · have := hs.hend e he
            show e.endTime ≤ s.currentTime + s.remaining.getD idx 0
            omega
          · rw [List.mem_singleton.1 he]
        · intro e he
          rcases List.mem_append.1 he with he | he
          · exact hs.hwf e he
          · rw [List.mem_singleton.1 he]
            show s.currentTime < s.currentTime + s.remaining.getD idx 0
            omega
      · have hms : rrMeasure s =
            ((idx :: rest).map (fun i => (s.remaining.getD i 0).toNat)).sum +
              (idx :: rest).length := by
          rw [rrMeasure, hq]
        rw [hms]
        show (rest.map (fun i =>
            ((s.remaining.set idx 0).getD i 0).toNat)).sum + rest.length <
          ((idx :: rest).map (fun i => (s.remaining.getD i 0).toNat)).sum +
            (idx :: rest).length
        have hrest : rest.map (fun i =>
            ((s.remaining.set idx 0).getD i 0).toNat) =
            rest.map (fun i => (s.remaining.getD i 0).toNat) := by
          apply List.map_congr_left
          intro a ha
          have hne2 : idx ≠ a := fun hh => hnd.1 (hh ▸ ha)
          rw [getD_set_ne s.remaining idx a _ 0 hne2]
        rw [hrest, List.map_cons, List.sum_cons, List.length_cons]
        omega

theorem rrRun_some_inv (tq : Int) (htq : 0 < tq) (ps0 : List Process) :
    ∀ (fuel : Nat) (s s' : RRState), RRInv ps0 s → rrRun tq fuel s = some s' →
      RRInv ps0 s' ∧ s'.q = [] := by
  intro fuel
  induction fuel with
  | zero =>
    intro s s' hs hr
    rw [rrRun] at hr
    by_cases hc : s.q = []
    · rw [if_pos hc] at hr
      obtain rfl : s = s' := by injection hr
      exact ⟨hs, hc⟩
    · rw [if_neg hc] at hr
      exact absurd hr (by simp)
  | succ fuel ih =>
    intro s s' hs hr
    rw [rrRun] at hr
    by_cases hc : s.q = []
    · rw [if_pos hc] at hr
      obtain rfl : s = s' := by injection hr
      exact ⟨hs, hc⟩
    · rw [if_neg hc] at hr
      exact ih (rrStep tq s) s' (rrStep_inv tq htq ps0 s hs hc).1 hr

theorem rrRun_term (tq : Int) (htq : 0 < tq) (ps0 : List Process) :
    ∀ (fuel : Nat) (s : RRState), RRInv ps0 s → rrMeasure s ≤ fuel →
      (rrRun tq fuel s).isSome := by
  intro fuel
  induction fuel with
  | zero =>
    intro s hs hb
    have hq : s.q = [] := by
      rw [← List.length_eq_zero]
      have : s.q.length ≤ rrMeasure s := by
        rw [rrMeasure]; omega
      omega
    rw [rrRun, if_pos hq]
    rfl
  | succ fuel ih =>
    intro s hs hb
    rw [rrRun]
    by_cases hc : s.q = []
    · rw [if_pos hc]; rfl
    · rw [if_neg hc]
      obtain ⟨hinv, hdec⟩ := rrStep_inv tq htq ps0 s hs hc
      exact ih (rrStep tq s) hinv (by omega)

theorem getD_map_burst (ps : List Process) (i : Nat) (hi : i < ps.length) :
    (ps.map (fun p => p.burstTime)).getD i 0 = (nth ps i).burstTime := by
  rw [List.getD_eq_getElem?_getD, List.getElem?_map, nth,
    List.getD_eq_getElem ps defaultProcess hi, List.getElem?_eq_getElem hi]
  rfl

theorem rrInitWith_inv (sortImpl : List Process → List Process)
    (hsort : SortsByArrival sortImpl) (ps : List Process)
    (hvalid : ∀ p ∈ ps, ValidProcess p) :
    RRInv (sortImpl ps) (rrInitWith sortImpl ps) := by
  have hlen : (sortImpl ps).length = ps.length := (hsort ps).1.length_eq
  constructor
  · rfl
  · show (ps.map (fun p => p.burstTime)).length = (sortImpl ps).length
    rw [List.length_map, hlen]
  · intro i hi
    have hi' : i ∈ List.range ps.length := hi
    rw [List.mem_range] at hi'
    omega
  · exact List.nodup_range ps.length
  · intro i hi
    have hi' : i ∈ List.range ps.length := hi
    rw [List.mem_range] at hi'
    show 0 < (ps.map (fun p => p.burstTime)).getD i 0
    rw [getD_map_burst ps i hi']
    have := hvalid (nth ps i) (nth_mem ps i hi')
    rw [ValidProcess] at this
    omega
  · intro i hi hni
    exfalso
    apply hni
    show i ∈ List.range ps.length
    rw [List.mem_range]
    omega
  · intro i; rfl
  · exact List.Pairwise.nil
  · intro e he; exact absurd he (by simp [rrInitWith])
  · intro e he; exact absurd he (by simp [rrInitWith])

/-- With a non-positive quantum and a single positive-remaining process the
RoundRobin loop never terminates: the process is re-enqueued forever. -/
theorem rr_nonpos_quantum_loops (tq : Int) (htq : tq ≤ 0) (p : Process) :
    ∀ (fuel : Nat) (r t : Int) (ex : List ExecutionSegment), 0 < r →
      rrRun tq fuel ⟨[p], [r], [0], t, ex⟩ = none := by
  intro fuel
  induction fuel with
  | zero =>
    intro r t ex hr
    rw [rrRun, if_neg (by simp)]
  | succ fuel ih =>
    intro r t ex hr
    rw [rrRun, if_neg (by simp)]
    have hstep := rrStep_big tq ⟨[p], [r], [0], t, ex⟩ 0 [] rfl
      (show tq < ([r] : List Int).getD 0 0 by
        show tq < r
        omega)
    rw [hstep]
    exact ih (r - tq) (t + tq) _ (by omega)

/-! ## Frame helpers: immutable fields, positional equality, sortedness -/

theorem map_core_of_nth (a b : List Process) (hlen : a.length = b.length)
    (h : ∀ i, core (nth a i) = core (nth b i)) :
    a.map core = b.map core := by
  apply List.ext_getElem
  · rw [List.length_map, List.length_map, hlen]
  · intro i h1 h2
    rw [List.length_map] at h1 h2
    rw [List.getElem_map, List.getElem_map]
    have := h i
    rw [nth, nth, List.getD_eq_getElem a defaultProcess h1,
      List.getD_eq_getElem b defaultProcess h2] at this
    exact this

theorem map_arr_of_map_core (a b : List Process)
    (h : a.map core = b.map core) :
    a.map (fun p => p.arrivalTime) = b.map (fun p => p.arrivalTime) := by
  have h2 : (a.map core).map (fun c => c.2.1) =
      (b.map core).map (fun c => c.2.1) := by rw [h]
  rw [List.map_map, List.map_map] at h2
  exact h2

theorem pairwise_arr_of_map_core (a b : List Process)
    (h : a.map core = b.map core)
    (hp : a.Pairwise (fun x y => x.arrivalTime ≤ y.arrivalTime)) :
    b.Pairwise (fun x y => x.arrivalTime ≤ y.arrivalTime) := by
  have ha := map_arr_of_map_core a b h
  have h1 : List.Pairwise (fun x y : Int => x ≤ y)
      (a.map (fun p => p.arrivalTime)) := List.pairwise_map.2 hp
  rw [ha] at h1
  exact List.pairwise_map.1 h1

theorem perm_map_core_input (ps : List Process) :
    ((sortByArrival ps).map core).Perm (ps.map core) :=
  (sortByArrival_perm ps).map core

/-! ## Metric aggregation helpers -/

theorem displayResultsMetrics_avgT (ps : List Process) :
    (displayResultsMetrics ps).avgTurnaround =
      dDiv (ps.foldl (fun a p => a + (p.turnaroundTime : ℚ)) 0)
        (ps.length : ℚ) := rfl

theorem displayResultsMetrics_avgW (ps : List Process) :
    (displayResultsMetrics ps).avgWaiting =
      dDiv (ps.foldl (fun a p => a + (p.waitingTime : ℚ)) 0)
        (ps.length : ℚ) := rfl

theorem displayResultsMetrics_thr (ps : List Process) :
    (displayResultsMetrics ps).throughput =
      dDiv (ps.length : ℚ) (totalTimeOf ps) := rfl

/-! ## Claim C1 -/

/-- C1, counterexample.  The claim asserts `waiting ≥ 0` and
`turnaround ≥ burst` for *every* policy on every valid input, but
`Scheduler::RoundRobin` enqueues all processes at time 0 regardless of their
arrival time: for the valid single process (PID 1, arrival 5, burst 3) and
quantum 10 the run completes with `waiting = -5 < 0` and
`turnaround - burst = -5 < 0`. -/
theorem rr_arrival_after_zero_negative_waiting :
    (∀ p ∈ [mkProcess 1 5 3 1], ValidProcess p) ∧
    (rrRun 10 1 (rrInit [mkProcess 1 5 3 1])).map
      (fun s => s.ps.map (fun p => p.waitingTime)) = some [-5] ∧
    (rrRun 10 1 (rrInit [mkProcess 1 5 3 1])).map
      (fun s => s.ps.map (fun p => p.turnaroundTime - p.burstTime)) =
        some [-5] ∧
    ¬ (0 : Int) ≤ -5 := by decide

/-- C1, amended.  After any completed run on a valid input set, every process
record satisfies `turnaround = completion - arrival` and
`waiting = turnaround - burst`; for FCFS, SJF and PriorityScheduling
additionally `turnaround ≥ burst` and `waiting ≥ 0` hold, while RoundRobin
guarantees only the two equations (non-negativity can fail for processes
arriving after time 0). -/
theorem schedule_metric_equations (ps : List Process)
    (hv : ∀ p ∈ ps, ValidProcess p) :
    (∀ p ∈ (FCFS ps).2, fieldsOK p) ∧
    (∀ (fuel : Nat) (s' : SJFState), sjfRun fuel (sjfInit ps) = some s' →
      ∀ p ∈ s'.ps, fieldsOK p) ∧
    (∀ (wa : Bool) (fuel : Nat) (s' : SJFState),
      priorityRun wa fuel (sjfInit ps) = some s' →
      ∀ p ∈ s'.ps, fieldsOK p) ∧
    (∀ (tq : Int) (fuel : Nat) (s' : RRState), 0 < tq →
      rrRun tq fuel (rrInit ps) = some s' → ∀ p ∈ s'.ps, derivedOK p) := by
  refine ⟨?_, ?_, ?_, ?_⟩
  · exact fcfsLoop_fieldsOK (sortByArrival ps) 0
  · intro fuel s' hr
    obtain ⟨hinv, hfin⟩ :=
      sjfRun_some_inv ps hv fuel _ s' (loopInv_init ps) hr
    exact loopInv_final ps s' hinv hfin
  · intro wa fuel s' hr
    obtain ⟨hinv, hfin⟩ :=
      priorityRun_some_inv wa ps hv fuel _ s' (loopInv_init ps) hr
    exact loopInv_final ps s' hinv hfin
  · intro tq fuel s' htq hr
    obtain ⟨hinv, hq⟩ := rrRun_some_inv tq htq (sortByArrival ps) fuel _ s'
      (rrInitWith_inv sortByArrival sortByArrival_conforms ps hv) hr
    intro p hp
    obtain ⟨i, hi, rfl⟩ := mem_nth s'.ps p hp
    exact hinv.hdone i (by rw [← hinv.hlen]; exact hi) (by rw [hq]; simp)

/-- C1, witness: the amended theorem applied to the concrete valid input
`[(PID 1, arrival 0, burst 2, priority 1)]`. -/
theorem schedule_metric_equations_witness :
    (∀ p ∈ [mkProcess 1 0 2 1], ValidProcess p) ∧
    (∀ p ∈ (FCFS [mkProcess 1 0 2 1]).2, fieldsOK p) ∧
    (∃ s', sjfRun 1 (sjfInit [mkProcess 1 0 2 1]) = some s' ∧
      ∀ p ∈ s'.ps, fieldsOK p) ∧
    (∃ s', priorityRun true 3 (sjfInit [mkProcess 1 0 2 1]) = some s' ∧
      ∀ p ∈ s'.ps, fieldsOK p) ∧
    (∃ s', rrRun 1 3 (rrInit [mkProcess 1 0 2 1]) = some s' ∧
      ∀ p ∈ s'.ps, derivedOK p) := by
  have h := schedule_metric_equations [mkProcess 1 0 2 1] (by decide)
  exact ⟨by decide, h.1, ⟨_, rfl, h.2.1 1 _ rfl⟩,
    ⟨_, rfl, h.2.2.1 true 3 _ rfl⟩,
    ⟨_, rfl, h.2.2.2 1 3 _ (by decide) rfl⟩⟩

/-! ## Claim C2 -/

/-- C2, code bug.  The spec requires a quantum ≤ 0 to be rejected before the
simulation starts, but `Scheduler::RoundRobin` (and `executeScheduler`)
validates nothing: with quantum 0 and the valid process (PID 1, arrival 0,
burst 5) the loop re-enqueues the process forever — for every fuel bound the
embedded loop is still running (`none`), so there is neither a rejection nor
a completed schedule. -/
theorem rr_quantum_zero_never_terminates :
    ∀ fuel : Nat, rrRun 0 fuel (rrInit [mkProcess 1 0 5 1]) = none := by
  intro fuel
  have h0 : rrInit [mkProcess 1 0 5 1] =
      ⟨[mkProcess 1 0 5 1], [5], [0], 0, []⟩ := by decide
  rw [h0]
  exact rr_nonpos_quantum_loops 0 (by omega) (mkProcess 1 0 5 1) fuel 5 0 []
    (by omega)

/-! ## Claim C3 -/

/-- C3, counterexample.  Input: PID 1 (arrival 10, burst 5) at index 0 and
PID 2 (arrival 10, burst 1) at index 1; at `currentTime = 0` nothing has
arrived, so the fallback advances the clock to 10 — but then SJF executes
index 0 (PID 1) directly, although PID 2 has also arrived (10 ≤ 10) with a
strictly smaller burst (1 < 5).  The claim's re-run of the selection would
have executed PID 2 first. -/
theorem sjf_fallback_ignores_shorter_job :
    (SJF [mkProcess 1 10 5 1, mkProcess 2 10 1 2]).map (fun s => s.exec) =
      some [⟨1, 10, 15⟩, ⟨2, 15, 16⟩] ∧
    (nth [mkProcess 1 10 5 1, mkProcess 2 10 1 2] 1).arrivalTime ≤ 10 ∧
    (nth [mkProcess 1 10 5 1, mkProcess 2 10 1 2] 1).burstTime <
      (nth [mkProcess 1 10 5 1, mkProcess 2 10 1 2] 0).burstTime ∧
    (∀ p ∈ [mkProcess 1 10 5 1, mkProcess 2 10 1 2], ValidProcess p) := by
  decide

/-- C3, amended.  When the SJF scan finds no arrived process, the algorithm
takes the *first* not-yet-scheduled process in index order, advances
`currentTime` to that process's arrival time and executes it directly — the
selection is not re-run, so the executed process need not have minimal burst
among the processes arrived at the new time. -/
theorem sjf_fallback_executes_first_unscheduled (s : SJFState) (i : Nat)
    (hscan : (sjfScan s.ps s.processed s.currentTime).1 = none)
    (hff : firstFalse s.processed = some i) :
    (s.processed.getD i true = false ∧
      ∀ j < i, s.processed.getD j true = true) ∧
    sjfStep s = sjfExecute s i (nth s.ps i).arrivalTime ∧
    (sjfStep s).exec = s.exec ++ [⟨(nth s.ps i).PID,
      (nth s.ps i).arrivalTime,
      (nth s.ps i).arrivalTime + (nth s.ps i).burstTime⟩] ∧
    (sjfStep s).currentTime =
      (nth s.ps i).arrivalTime + (nth s.ps i).burstTime := by
  have hstep : sjfStep s = sjfExecute s i (nth s.ps i).arrivalTime := by
    rw [sjfStep, hscan, hff]
  exact ⟨firstFalse_some s.processed i hff, hstep,
    by rw [hstep, sjfExecute_exec], by rw [hstep, sjfExecute_currentTime]⟩

/-- C3, witness: the amended theorem applied to the initial state of the
counterexample input, where the fallback picks index 0. -/
theorem sjf_fallback_witness :
    (sjfScan (sjfInit [mkProcess 1 10 5 1, mkProcess 2 10 1 2]).ps
      (sjfInit [mkProcess 1 10 5 1, mkProcess 2 10 1 2]).processed
      (sjfInit [mkProcess 1 10 5 1, mkProcess 2 10 1 2]).currentTime).1 =
        none ∧
    firstFalse (sjfInit [mkProcess 1 10 5 1,
      mkProcess 2 10 1 2]).processed = some 0 ∧
    sjfStep (sjfInit [mkProcess 1 10 5 1, mkProcess 2 10 1 2]) =
      sjfExecute (sjfInit [mkProcess 1 10 5 1, mkProcess 2 10 1 2]) 0
        (nth [mkProcess 1 10 5 1, mkProcess 2 10 1 2] 0).arrivalTime := by
  refine ⟨by decide, by decide, ?_⟩
  exact (sjf_fallback_executes_first_unscheduled
    (sjfInit [mkProcess 1 10 5 1, mkProcess 2 10 1 2]) 0 (by decide)
    (by decide)).2.1

/-! ## Claim C4 -/

/-- C4, counterexample.  On the empty process set the aggregation of
`displayResults` does not fail before computing: it performs `0/0` for both
averages and for the throughput and silently obtains non-finite values
(`none` models NaN/Inf in this embedding). -/
theorem aggregator_empty_produces_nan :
    displayResultsMetrics [] = ⟨none, none, none⟩ ∧
    (displayResultsMetrics []).avgTurnaround.isSome = false ∧
    (displayResultsMetrics []).avgWaiting.isSome = false ∧
    (displayResultsMetrics []).throughput.isSome = false := by decide

/-- C4, amended.  The aggregator divides unconditionally; on the empty set
all three outputs are non-finite (NaN), so callers must guard.  On any
non-empty set the two averages are finite, and the throughput is finite
exactly when the maximal completion time is non-zero. -/
theorem aggregator_unguarded (ps : List Process) (hne : ps ≠ []) :
    (displayResultsMetrics ps).avgTurnaround.isSome ∧
    (displayResultsMetrics ps).avgWaiting.isSome ∧
    ((displayResultsMetrics ps).throughput.isSome ↔ totalTimeOf ps ≠ 0) ∧
    displayResultsMetrics [] = ⟨none, none, none⟩ := by
  have hlen : (ps.length : ℚ) ≠ 0 := by
    have hpos : 0 < ps.length := List.length_pos.2 hne
    exact Nat.cast_ne_zero.2 (by omega)
  refine ⟨?_, ?_, ?_, by decide⟩
  · rw [displayResultsMetrics_avgT, dDiv, if_neg hlen]
    rfl
  · rw [displayResultsMetrics_avgW, dDiv, if_neg hlen]
    rfl
  · rw [displayResultsMetrics_thr, dDiv]
    by_cases ht : totalTimeOf ps = 0
    · rw [if_pos ht]
      simp [ht]
    · rw [if_neg ht]
      simp [ht]

/-- C4, witness: the amended theorem applied to a one-process set. -/
theorem aggregator_unguarded_witness :
    ([mkProcess 1 0 2 1] ≠ ([] : List Process)) ∧
    (displayResultsMetrics [mkProcess 1 0 2 1]).avgTurnaround.isSome :=
  ⟨by decide, (aggregator_unguarded [mkProcess 1 0 2 1] (by decide)).1⟩

/-! ## Claims C5 and C9 -/

theorem chrono_pid_disjoint (l : List ExecutionSegment) (h : Chrono l) :
    ∀ a ∈ l, ∀ b ∈ l, a.processID ≠ b.processID → SegDisjoint a b := by
  intro a ha b hb hne
  exact chrono_disjoint l h a b ha hb (fun hh => hne (by rw [hh]))

theorem FCFS_eq (ps : List Process) :
    FCFS ps = fcfsLoop 0 (sortByArrival ps) := rfl

theorem fcfs_burst_pos (ps : List Process)
    (hv : ∀ p ∈ ps, ValidProcess p) :
    ∀ p ∈ sortByArrival ps, 0 < p.burstTime := by
  intro p hp
  have := hv p ((sortByArrival_perm ps).mem_iff.1 hp)
  rw [ValidProcess] at this
  omega

/-- C5: for every policy on valid inputs (positive quantum for RoundRobin),
any two segments of the returned sequence that belong to distinct processes
occupy disjoint time intervals. -/
theorem segments_of_distinct_processes_disjoint (ps : List Process)
    (hv : ∀ p ∈ ps, ValidProcess p) :
    (∀ a ∈ (FCFS ps).1, ∀ b ∈ (FCFS ps).1,
      a.processID ≠ b.processID → SegDisjoint a b) ∧
    (∀ (fuel : Nat) (s' : SJFState), sjfRun fuel (sjfInit ps) = some s' →
      ∀ a ∈ s'.exec, ∀ b ∈ s'.exec,
        a.processID ≠ b.processID → SegDisjoint a b) ∧
    (∀ (wa : Bool) (fuel : Nat) (s' : SJFState),
      priorityRun wa fuel (sjfInit ps) = some s' →
      ∀ a ∈ s'.exec, ∀ b ∈ s'.exec,
        a.processID ≠ b.processID → SegDisjoint a b) ∧
    (∀ (tq : Int) (fuel : Nat) (s' : RRState), 0 < tq →
      rrRun tq fuel (rrInit ps) = some s' →
      ∀ a ∈ s'.exec, ∀ b ∈ s'.exec,
        a.processID ≠ b.processID → SegDisjoint a b) := by
  refine ⟨?_, ?_, ?_, ?_⟩
  · rw [FCFS_eq]
    exact chrono_pid_disjoint _ (fcfsLoop_chrono (sortByArrival ps) 0
      (fcfs_burst_pos ps hv)).1
  · intro fuel s' hr
    exact chrono_pid_disjoint _
      (sjfRun_some_inv ps hv fuel _ s' (loopInv_init ps) hr).1.hchrono
  · intro wa fuel s' hr
    exact chrono_pid_disjoint _
      (priorityRun_some_inv wa ps hv fuel _ s' (loopInv_init ps) hr).1.hchrono
  · intro tq fuel s' htq hr
    exact chrono_pid_disjoint _
      (rrRun_some_inv tq htq (sortByArrival ps) fuel _ s'
        (rrInitWith_inv sortByArrival sortByArrival_conforms ps hv) hr).1.hchrono

/-- C5, witness: the theorem applied to a concrete two-process input. -/
theorem segments_disjoint_witness :
    (∀ p ∈ [mkProcess 1 0 2 1, mkProcess 2 1 3 1], ValidProcess p) ∧
    (∀ a ∈ (FCFS [mkProcess 1 0 2 1, mkProcess 2 1 3 1]).1,
      ∀ b ∈ (FCFS [mkProcess 1 0 2 1, mkProcess 2 1 3 1]).1,
        a.processID ≠ b.processID → SegDisjoint a b) ∧
    (∃ s', rrRun 2 7 (rrInit [mkProcess 1 0 2 1, mkProcess 2 1 3 1]) =
        some s' ∧
      ∀ a ∈ s'.exec, ∀ b ∈ s'.exec,
        a.processID ≠ b.processID → SegDisjoint a b) := by
  have h := segments_of_distinct_processes_disjoint
    [mkProcess 1 0 2 1, mkProcess 2 1 3 1] (by decide)
  exact ⟨by decide, h.1, ⟨_, rfl, h.2.2.2 2 7 _ (by decide) rfl⟩⟩

/-- C9: for every policy on valid inputs (positive quantum for RoundRobin),
the returned segment sequence is already chronological: every segment has
`endTime > startTime` and each segment starts no earlier than every earlier
segment ends. -/
theorem segments_chronological (ps : List Process)
    (hv : ∀ p ∈ ps, ValidProcess p) :
    (Chrono (FCFS ps).1 ∧
      ∀ e ∈ (FCFS ps).1, e.startTime < e.endTime) ∧
    (∀ (fuel : Nat) (s' : SJFState), sjfRun fuel (sjfInit ps) = some s' →
      Chrono s'.exec ∧ ∀ e ∈ s'.exec, e.startTime < e.endTime) ∧
    (∀ (wa : Bool) (fuel : Nat) (s' : SJFState),
      priorityRun wa fuel (sjfInit ps) = some s' →
      Chrono s'.exec ∧ ∀ e ∈ s'.exec, e.startTime < e.endTime) ∧
    (∀ (tq : Int) (fuel : Nat) (s' : RRState), 0 < tq →
      rrRun tq fuel (rrInit ps) = some s' →
      Chrono s'.exec ∧ ∀ e ∈ s'.exec, e.startTime < e.endTime) := by
  refine ⟨?_, ?_, ?_, ?_⟩
  · rw [FCFS_eq]
    obtain ⟨h1, h2⟩ := fcfsLoop_chrono (sortByArrival ps) 0
      (fcfs_burst_pos ps hv)
    exact ⟨h1, fun e he => (h2 e he).2⟩
  · intro fuel s' hr
    have h := (sjfRun_some_inv ps hv fuel _ s' (loopInv_init ps) hr).1
    exact ⟨h.hchrono, h.hwf⟩
  · intro wa fuel s' hr
    have h := (priorityRun_some_inv wa ps hv fuel _ s' (loopInv_init ps) hr).1
    exact ⟨h.hchrono, h.hwf⟩
  · intro tq fuel s' htq hr
    have h := (rrRun_some_inv tq htq (sortByArrival ps) fuel _ s'
      (rrInitWith_inv sortByArrival sortByArrival_conforms ps hv) hr).1
    exact ⟨h.hchrono, h.hwf⟩

/-- C9, witness: the theorem applied to a concrete two-process input. -/
theorem segments_chronological_witness :
    (∀ p ∈ [mkProcess 1 0 2 1, mkProcess 2 1 3 1], ValidProcess p) ∧
    Chrono (FCFS [mkProcess 1 0 2 1, mkProcess 2 1 3 1]).1 ∧
    (∃ s', sjfRun 2 (sjfInit [mkProcess 1 0 2 1, mkProcess 2 1 3 1]) =
        some s' ∧ Chrono s'.exec ∧
        ∀ e ∈ s'.exec, e.startTime < e.endTime) ∧
    (∃ s', rrRun 2 7 (rrInit [mkProcess 1 0 2 1, mkProcess 2 1 3 1]) =
        some s' ∧ Chrono s'.exec) := by
  have h := segments_chronological
    [mkProcess 1 0 2 1, mkProcess 2 1 3 1] (by decide)
  exact ⟨by decide, h.1.1, ⟨_, rfl, h.2.1 2 _ rfl⟩,
    ⟨_, rfl, (h.2.2.2 2 7 _ (by decide) rfl).1⟩⟩

/-! ## Claim C6 -/

/-- C6, counterexample.  The claim quantifies over *any* quantum value, but
with quantum `-1` (or any quantum ≤ 0) on the valid process (PID 2,
arrival 0, burst 7) the RoundRobin loop never reaches the empty-queue state:
no fuel bound suffices, the simulation runs forever. -/
theorem rr_negative_quantum_diverges :
    ¬ ∃ fuel : Nat,
      (rrRun (-1) fuel (rrInit [mkProcess 2 0 7 1])).isSome := by
  rintro ⟨fuel, hf⟩
  have h0 : rrInit [mkProcess 2 0 7 1] =
      ⟨[mkProcess 2 0 7 1], [7], [0], 0, []⟩ := by decide
  rw [h0, rr_nonpos_quantum_loops (-1) (by omega) (mkProcess 2 0 7 1) fuel
    7 0 [] (by omega)] at hf
  exact absurd hf (by simp)

/-- C6, amended.  On valid inputs every policy terminates provided
RoundRobin's quantum is positive: SJF within `length` iterations,
PriorityScheduling within `2·length + 1` iterations, and RoundRobin within
`rrMeasure` iterations (total remaining work plus queue length); FCFS is a
structurally terminating fold.  With quantum ≤ 0 RoundRobin does not
terminate. -/
theorem policies_terminate (ps : List Process)
    (hv : ∀ p ∈ ps, ValidProcess p) :
    (sjfRun ps.length (sjfInit ps)).isSome ∧
    (∀ wa : Bool,
      (priorityRun wa (2 * ps.length + 1) (sjfInit ps)).isSome) ∧
    (∀ tq : Int, 0 < tq →
      (rrRun tq (rrMeasure (rrInit ps)) (rrInit ps)).isSome) := by
  refine ⟨?_, ?_, ?_⟩
  · apply sjfRun_term ps hv ps.length (sjfInit ps) (loopInv_init ps)
    show ps.length ≤ 0 + ps.length
    omega
  · intro wa
    apply priorityRun_term wa ps hv (2 * ps.length + 1) (sjfInit ps)
      (loopInv_init ps)
    show 2 * (ps.length - 0) + 1 ≤ 2 * ps.length + 1
    omega
  · intro tq htq
    exact rrRun_term tq htq (sortByArrival ps) (rrMeasure (rrInit ps))
      (rrInit ps)
      (rrInitWith_inv sortByArrival sortByArrival_conforms ps hv) le_rfl

/-- C6, witness: termination of the three loops on a concrete input. -/
theorem policies_terminate_witness :
    (∀ p ∈ [mkProcess 1 0 2 1, mkProcess 2 1 3 1], ValidProcess p) ∧
    (sjfRun 2 (sjfInit [mkProcess 1 0 2 1, mkProcess 2 1 3 1])).isSome ∧
    (rrRun 2 (rrMeasure (rrInit [mkProcess 1 0 2 1, mkProcess 2 1 3 1]))
      (rrInit [mkProcess 1 0 2 1, mkProcess 2 1 3 1])).isSome := by
  have h := policies_terminate [mkProcess 1 0 2 1, mkProcess 2 1 3 1]
    (by decide)
  exact ⟨by decide, h.1, h.2.2 2 (by decide)⟩

/-! ## Claim C7 -/

/-- C7: whenever some not-yet-scheduled process has arrived (and priorities
are representable below `INT_MAX`), the PriorityScheduling scan returns the
candidate minimizing the effective priority — `max(0, priority -
(currentTime - arrival) / agingInterval)` with aging, plain `priority`
without — with ties broken by earlier arrival, then smaller burst, then
first-encountered index; and the loop iteration executes exactly that
process at `currentTime`. -/
theorem priority_selects_min_effective (wa : Bool) (ps : List Process)
    (flags : List Bool) (t : Int)
    (hpr : ∀ i, i < ps.length → (nth ps i).priority < INT_MAX)
    (hex : ∃ i, isCandidate ps flags t i) :
    ∃ j, (priorityScan wa ps flags t).1 = some j ∧
      isCandidate ps flags t j ∧
      effPriority wa t (nth ps j) = (if wa then
        max 0 ((nth ps j).priority -
          (t - (nth ps j).arrivalTime) / agingInterval)
        else (nth ps j).priority) ∧
      (∀ i, isCandidate ps flags t i →
        ¬ keyLt (selKey wa ps t i) (selKey wa ps t j)) ∧
      (∀ i, isCandidate ps flags t i →
        selKey wa ps t i = selKey wa ps t j → j ≤ i) ∧
      (∀ (c : Nat) (ex : List ExecutionSegment),
        (priorityStep wa ⟨ps, flags, t, c, ex⟩).exec =
          ex ++ [⟨(nth ps j).PID, t, t + (nth ps j).burstTime⟩]) := by
  obtain ⟨i0, hi0⟩ := hex
  rcases priorityScan_fold_spec wa ps flags t hpr ps.length le_rfl with
    ⟨_, hnone⟩ | ⟨j, hrj, hj1, hj2, hj3, hmin⟩
  · exact absurd ⟨hi0.2.1, hi0.2.2⟩ (hnone i0 hi0.1)
  · have hsome : (priorityScan wa ps flags t).1 = some j := by
      rw [priorityScan, hrj]
    refine ⟨j, hsome, ⟨hj1, hj2, hj3⟩, ?_, ?_, ?_, ?_⟩
    · cases wa
      · rfl
      · show max ((nth ps j).priority - (t - (nth ps j).arrivalTime) / 5) 0 =
          max 0 ((nth ps j).priority - (t - (nth ps j).arrivalTime) / 5)
        exact max_comm _ _
    · intro i hi
      exact (hmin i hi.1 hi.2.1 hi.2.2).1
    · intro i hi heq
      exact (hmin i hi.1 hi.2.1 hi.2.2).2 heq
    · intro c ex
      rw [priorityStep_some wa ⟨ps, flags, t, c, ex⟩ j hsome,
        sjfExecute_exec]

/-- C7, witness: aged tie between two equal-priority processes at time 10;
the smaller burst (index 1) wins. -/
theorem priority_selects_witness :
    (∀ i, i < ([mkProcess 1 0 4 5, mkProcess 2 0 2 5] :
      List Process).length →
      (nth [mkProcess 1 0 4 5, mkProcess 2 0 2 5] i).priority < INT_MAX) ∧
    isCandidate [mkProcess 1 0 4 5, mkProcess 2 0 2 5] [false, false]
      10 0 ∧
    (∃ j, (priorityScan true [mkProcess 1 0 4 5, mkProcess 2 0 2 5]
        [false, false] 10).1 = some j ∧
      isCandidate [mkProcess 1 0 4 5, mkProcess 2 0 2 5] [false, false]
        10 j) := by
  have h := priority_selects_min_effective true
    [mkProcess 1 0 4 5, mkProcess 2 0 2 5] [false, false] 10
    (by decide) ⟨0, by decide⟩
  obtain ⟨j, hj1, hj2, _⟩ := h
  exact ⟨by decide, by decide, ⟨j, hj1, hj2⟩⟩

/-! ## Claim C8 -/

/-- C8, counterexample.  `std::sort` guarantees only a comparator-sorted
permutation, not stability: `unstableTieSort` satisfies the full contract of
the source's sort call, yet on two processes with equal arrival (PIDs 1 and
2, in that input order) FCFS built on it returns the records in the order
[2, 1]. -/
theorem unstable_sort_breaks_fcfs_tie_order :
    SortsByArrival unstableTieSort ∧
    (unstableTieSort [mkProcess 1 0 3 1, mkProcess 2 0 4 2]).map
      (fun p => p.PID) = [2, 1] ∧
    (FCFSWith unstableTieSort [mkProcess 1 0 3 1, mkProcess 2 0 4 2]).2.map
      (fun p => p.PID) = [2, 1] ∧
    (mkProcess 1 0 3 1).arrivalTime = (mkProcess 2 0 4 2).arrivalTime :=
  ⟨unstableTieSort_conforms, by decide, by decide, by decide⟩

/-- C8, amended.  The sort used by FCFS and RoundRobin is guaranteed to be an
arrival-sorted permutation, but `std::sort` does not guarantee stability on
ties; under the embedding's deterministic stable model the original relative
order of equal-arrival processes is preserved (filter stability), and the
initial RoundRobin queue is exactly the index order of the sorted vector. -/
theorem arrival_sort_contract_and_model_stability :
    SortsByArrival sortByArrival ∧
    (∀ (a : Int) (ps : List Process),
      (sortByArrival ps).filter (fun p => p.arrivalTime == a) =
        ps.filter (fun p => p.arrivalTime == a)) ∧
    (∀ ps : List Process,
      (rrInitWith sortByArrival ps).q = List.range ps.length) :=
  ⟨sortByArrival_conforms, fun a ps => sortByArrival_stable a ps,
    fun _ => rfl⟩

/-! ## Claim C10 -/

/-- C10: FCFS and RoundRobin return the record vector permuted into
arrival-ascending order (a permutation of the input on the immutable fields
id/arrival/burst/priority), whereas SJF and PriorityScheduling leave every
record at its original position; in all four policies the immutable fields
of every record are unchanged. -/
theorem frame_conditions (ps : List Process)
    (hv : ∀ p ∈ ps, ValidProcess p) :
    ((FCFS ps).2.map core = (sortByArrival ps).map core ∧
      ((FCFS ps).2.map core).Perm (ps.map core) ∧
      (FCFS ps).2.Pairwise (fun a b => a.arrivalTime ≤ b.arrivalTime)) ∧
    (∀ (tq : Int) (fuel : Nat) (s' : RRState), 0 < tq →
      rrRun tq fuel (rrInit ps) = some s' →
      s'.ps.map core = (sortByArrival ps).map core ∧
      (s'.ps.map core).Perm (ps.map core) ∧
      s'.ps.Pairwise (fun a b => a.arrivalTime ≤ b.arrivalTime)) ∧
    (∀ (fuel : Nat) (s' : SJFState), sjfRun fuel (sjfInit ps) = some s' →
      s'.ps.map core = ps.map core) ∧
    (∀ (wa : Bool) (fuel : Nat) (s' : SJFState),
      priorityRun wa fuel (sjfInit ps) = some s' →
      s'.ps.map core = ps.map core) := by
  have hfc : (FCFS ps).2.map core = (sortByArrival ps).map core := by
    rw [FCFS_eq]
    exact fcfsLoop_core (sortByArrival ps) 0
  refine ⟨⟨hfc, ?_, ?_⟩, ?_, ?_, ?_⟩
  · rw [hfc]
    exact perm_map_core_input ps
  · exact pairwise_arr_of_map_core (sortByArrival ps) (FCFS ps).2 hfc.symm
      (sortByArrival_pairwise ps)
  · intro tq fuel s' htq hr
    have hinv := (rrRun_some_inv tq htq (sortByArrival ps) fuel _ s'
      (rrInitWith_inv sortByArrival sortByArrival_conforms ps hv) hr).1
    have hmc : s'.ps.map core = (sortByArrival ps).map core :=
      map_core_of_nth s'.ps (sortByArrival ps) hinv.hlen hinv.hcore
    refine ⟨hmc, ?_, ?_⟩
    · rw [hmc]
      exact perm_map_core_input ps
    · exact pairwise_arr_of_map_core (sortByArrival ps) s'.ps hmc.symm
        (sortByArrival_pairwise ps)
  · intro fuel s' hr
    have hinv := (sjfRun_some_inv ps hv fuel _ s' (loopInv_init ps) hr).1
    exact map_core_of_nth s'.ps ps hinv.hlen hinv.hcore
  · intro wa fuel s' hr
    have hinv := (priorityRun_some_inv wa ps hv fuel _ s'
      (loopInv_init ps) hr).1
    exact map_core_of_nth s'.ps ps hinv.hlen hinv.hcore

/-- C10, witness: the theorem applied to a concrete two-process input whose
arrival order differs from the input order. -/
theorem frame_conditions_witness :
    (∀ p ∈ [mkProcess 1 4 2 1, mkProcess 2 1 3 1], ValidProcess p) ∧
    (FCFS [mkProcess 1 4 2 1, mkProcess 2 1 3 1]).2.map core =
      (sortByArrival [mkProcess 1 4 2 1, mkProcess 2 1 3 1]).map core ∧
    (∃ s', sjfRun 2 (sjfInit [mkProcess 1 4 2 1, mkProcess 2 1 3 1]) =
        some s' ∧
      s'.ps.map core = [mkProcess 1 4 2 1, mkProcess 2 1 3 1].map core) := by
  have h := frame_conditions [mkProcess 1 4 2 1, mkProcess 2 1 3 1]
    (by decide)
  exact ⟨by decide, h.1.1, ⟨_, rfl, h.2.2.1 2 _ rfl⟩⟩

end CPUScheduler
